import Mathlib

/-!
Shallow embedding of the moving_gc_arena crate (src/lib.rs, src/types.rs,
src/inject.rs) in its default build (no debug-arena feature, identity
injection `InjectInto<T> for T`), together with proofs about its collector.

Modelling conventions:
* `usize` indices are `Nat`; `Ix<T>` keeps only its `ix` field.
* The user element type `T` with its `HasIx` traversal capability is embedded
  as `Obj A`: an abstract payload plus the list of owned `Ix` values in the
  order `foreach_ix` yields them.  The collector's closure is the stateful
  left-to-right rewrite of that list.
* `Rc<Cell<Ix<T>>>` cells live in an explicit heap (`List Cell`, id = position,
  ids never reused) with explicit strong counts (`Rc` shares) and weak counts
  (`rc::Weak` shares, as reported by `Rc::weak_count`).  `upgrade` succeeds
  exactly when the strong count is positive.  Dropping an `Rc` decrements the
  strong count; dropping an `rc::Weak` decrements the weak count.
* Rust panics of the collector are an `Except` error value.
* `Vec` capacity is tracked explicitly; `Vec::with_capacity n` has capacity
  `n`, `Vec::new` capacity 0, and `reserve` grows amortized.  In
  `prim_gc_to` the only capacity effect is the initial `dst.reserve(src.len())`,
  which is modelled at the call boundary of `primGcTo`; the raw-pointer writes
  plus `set_len` inside the collector are the plain list appends.
-/

set_option maxHeartbeats 1600000

namespace MovingGc

/-- A raw index into a region's backing store: the `Ix<T>` of `src/types.rs` in
the default build, holding only the `usize` offset. -/
structure Ix where
  ix : Nat
deriving DecidableEq, Repr

/-- `Ix::identifier` from `src/types.rs`: the raw offset. -/
def Ix.identifier (i : Ix) : Nat := i.ix

/-- One `Rc<Cell<Ix<T>>>` of the Rust heap, with the reference counts made
explicit: `strong` counts `Rc` shares, `weakc` counts `rc::Weak` shares. -/
structure Cell where
  val : Ix
  strong : Nat
  weakc : Nat
deriving DecidableEq, Repr

/-- The user element: an abstract payload together with the list of owned
internal indices, in the order `HasIx::foreach_ix` yields them. -/
structure Obj (A : Type) where
  payload : A
  edges : List Ix
deriving DecidableEq, Repr

/-- `Entry<T>` from `src/lib.rs`: the user value plus the optional strongly
held anchor cell `rc : Option<Rc<IxCell<T>>>`, given by the cell's heap id. -/
structure Entry (A : Type) where
  rc : Option Nat
  t : Obj A
deriving DecidableEq, Repr

/-- `Spot<T>` from `src/lib.rs`. -/
inductive Spot (A : Type) where
  | Present (e : Entry A)
  | BrokenHeart (i : Ix)
deriving DecidableEq, Repr

/-- A `Region<T>`: the backing store, its `Vec` capacity, the root registry
`roots : Vec<rc::Weak<IxCell<T>>>` (by cell id) and the heap of `Rc` cells. -/
structure Region (A : Type) where
  data : List (Spot A)
  cap : Nat
  roots : List Nat
  cells : List Cell
deriving DecidableEq, Repr

/-- The `Error` enum of `src/lib.rs`. -/
inductive Error where
  | Indeterminable
  | IncorrectRegion
  | EntryExpired
  | UnexpectedInternalState
deriving DecidableEq, Repr

/-- The panics the collector can raise: the out-of-range index panic of the
scan loop, and the broken-heart panic of `Spot::get_entry_mut`. -/
inductive RPanic where
  | invalidIndex (p : Nat) (objIndex : Nat)
  | unexpectedBrokenHeart
deriving DecidableEq, Repr

/-- Write a new index value into a heap cell (`Cell::set`). -/
def setCellVal (cs : List Cell) (cid : Nat) (v : Ix) : List Cell :=
  match cs[cid]? with
  | some c => cs.set cid { c with val := v }
  | none => cs

/-- Drop one `Rc` share of a cell. -/
def decStrong (cs : List Cell) (cid : Nat) : List Cell :=
  match cs[cid]? with
  | some c => cs.set cid { c with strong := c.strong - 1 }
  | none => cs

/-- Add one `Rc` share of a cell. -/
def incStrong (cs : List Cell) (cid : Nat) : List Cell :=
  match cs[cid]? with
  | some c => cs.set cid { c with strong := c.strong + 1 }
  | none => cs

/-- Drop one `rc::Weak` share of a cell. -/
def decWeakc (cs : List Cell) (cid : Nat) : List Cell :=
  match cs[cid]? with
  | some c => cs.set cid { c with weakc := c.weakc - 1 }
  | none => cs

/-- Add one `rc::Weak` share of a cell. -/
def incWeakc (cs : List Cell) (cid : Nat) : List Cell :=
  match cs[cid]? with
  | some c => cs.set cid { c with weakc := c.weakc + 1 }
  | none => cs

/-- `Ix::try_get` from `src/lib.rs` for the identity injection; the
non-diagnostic `check_region` always returns `Ok`. -/
def Ix.tryGet {A : Type} (i : Ix) (r : Region A) : Except Error (Obj A) :=
  match r.data[i.ix]? with
  | some (Spot.Present e) => .ok e.t
  | some (Spot.BrokenHeart _) => .error .Indeterminable
  | none => .error .Indeterminable

/-- `Ix::try_get_mut` from `src/lib.rs`: the same lookup as `try_get` through
`Vec::get_mut`; in the embedding the returned reference is the stored value. -/
def Ix.tryGetMut {A : Type} (i : Ix) (r : Region A) : Except Error (Obj A) :=
  match r.data[i.ix]? with
  | some (Spot.Present e) => .ok e.t
  | some (Spot.BrokenHeart _) => .error .Indeterminable
  | none => .error .Indeterminable

/-- A `Root<T>`: a strong share of an index cell, by heap id. -/
structure Root where
  cell : Nat
deriving DecidableEq, Repr

/-- A `Weak<T>`: an `rc::Weak` share of an index cell, by heap id. -/
structure Weak where
  cell : Nat
deriving DecidableEq, Repr

/-- `Weak::ix`: `Some` of the cell's current index when the upgrade succeeds
(strong count positive), `None` otherwise.  The heap lives in the region. -/
def Weak.ixOpt {A : Type} (w : Weak) (r : Region A) : Option Ix :=
  match r.cells[w.cell]? with
  | some c => if 0 < c.strong then some c.val else none
  | none => none

/-- `Weak::try_get`. -/
def Weak.tryGet {A : Type} (w : Weak) (r : Region A) : Except Error (Obj A) :=
  match w.ixOpt r with
  | some i => i.tryGet r
  | none => .error .EntryExpired

/-- `Root::ix`: the cell's current index.  A live `Root` holds a strong share,
so the cell always exists; the `none` branch is unreachable. -/
def Root.ix {A : Type} (rt : Root) (r : Region A) : Ix :=
  match r.cells[rt.cell]? with
  | some c => c.val
  | none => ⟨0⟩

/-- `Root::try_get`. -/
def Root.tryGet {A : Type} (rt : Root) (r : Region A) : Except Error (Obj A) :=
  (rt.ix r).tryGet r

/-- The borrowed allocation handle `MutEntry`: the new index plus the cached
`root : rc::Weak<IxCell<T>>`; `none` models the dangling `rc::Weak::new()`. -/
structure MutEntry where
  ix : Ix
  rootCache : Option Nat
deriving DecidableEq, Repr

/-- The shared body of `MutEntry::root` when a fresh root cell is made:
`Rc::new(Cell::new(i))` (one strong share, owned by the returned `Root`), a
downgrade pushed into the registry and a downgrade stored in the cache
(two weak shares). -/
def newRootCell {A : Type} (r : Region A) (me : MutEntry) :
    Region A × MutEntry × Root :=
  let cid := r.cells.length
  ({ r with cells := r.cells ++ [⟨me.ix, 1, 2⟩], roots := r.roots ++ [cid] },
   { me with rootCache := some cid }, ⟨cid⟩)

/-- `MutEntry::root` from `src/lib.rs`: upgrade the cached weak share; on
success return a share of the existing cell, otherwise build a fresh root
cell (dropping the dead cached weak share first). -/
def MutEntry.root {A : Type} (r : Region A) (me : MutEntry) :
    Region A × MutEntry × Root :=
  match me.rootCache with
  | some cid =>
    match r.cells[cid]? with
    | some c =>
      if 0 < c.strong then
        ({ r with cells := incStrong r.cells cid }, me, ⟨cid⟩)
      else
        newRootCell { r with cells := decWeakc r.cells cid } me
    | none => newRootCell r me
  | none => newRootCell r me

/-- `MutEntry::weak`, delegating to `Entry::weak` on the entry the handle
borrows (the spot at `me.ix`): share the entry's anchor cell, creating it
with one strong share held by the entry when absent.  A `MutEntry` always
borrows a `Present` spot, so the fallthrough branch is unreachable. -/
def Region.mutWeak {A : Type} (r : Region A) (me : MutEntry) :
    Region A × Weak :=
  match r.data[me.ix.ix]? with
  | some (Spot.Present e) =>
    match e.rc with
    | some cid => ({ r with cells := incWeakc r.cells cid }, ⟨cid⟩)
    | none =>
      let cid := r.cells.length
      ({ r with
          cells := r.cells ++ [⟨me.ix, 1, 1⟩],
          data := r.data.set me.ix.ix (Spot.Present { e with rc := some cid }) },
       ⟨cid⟩)
  | _ => (r, ⟨r.cells.length⟩)

/-- `Entry::check_clear_rc`: when the anchor has no `rc::Weak` observers the
entry drops its strong share and forgets the anchor. -/
def checkClearRc {A : Type} (cs : List Cell) (e : Entry A) :
    List Cell × Entry A :=
  match e.rc with
  | some cid =>
    match cs[cid]? with
    | some c =>
      if c.weakc = 0 then (decStrong cs cid, { e with rc := none })
      else (cs, e)
    | none => (cs, e)
  | none => (cs, e)

/-- `Entry::move_to`: update the anchor cell, when present, to the new index. -/
def entryMoveTo {A : Type} (cs : List Cell) (e : Entry A) (other : Ix) :
    List Cell :=
  match e.rc with
  | some cid => setCellVal cs cid other
  | none => cs

/-- The state threaded through `prim_gc_to`: the source store, the destination
store and the cell heap. -/
structure GcState (A : Type) where
  src : List (Spot A)
  dst : List (Spot A)
  cells : List Cell
deriving DecidableEq, Repr

/-- `push_spot` from `Region::prim_gc_to`: for a `Present` source spot run
`check_clear_rc` and `move_to(new_index)` on its entry, replace the spot by
`BrokenHeart(new_index)` and write the old contents at the end of `dst`; the
new index is the current `dst` length.  Callers only invoke it on in-range
source positions, so the `none` branch is unreachable. -/
def pushSpot {A : Type} (st : GcState A) (i : Nat) : GcState A × Ix :=
  let newIndex : Ix := ⟨st.dst.length⟩
  match st.src[i]? with
  | some (Spot.Present e) =>
    let p := checkClearRc st.cells e
    ({ src := st.src.set i (Spot.BrokenHeart newIndex),
       dst := st.dst ++ [Spot.Present p.2],
       cells := entryMoveTo p.1 p.2 newIndex }, newIndex)
  | some (Spot.BrokenHeart h) =>
    ({ src := st.src.set i (Spot.BrokenHeart newIndex),
       dst := st.dst ++ [Spot.BrokenHeart h],
       cells := st.cells }, newIndex)
  | none => (st, newIndex)

/-- The root-forwarding phase of `prim_gc_to`: the registry is drained in
order; an entry whose cell no longer upgrades, or whose index is out of range
of the source (`src.get_mut(ix.ix())?`), is silently dropped (its weak share
with it); a live in-range entry has its spot forwarded and its cell set to
the destination index, and is kept. -/
def forwardRoots {A : Type} (st : GcState A) :
    List Nat → List Nat × GcState A
  | [] => ([], st)
  | cid :: rest =>
    match st.cells[cid]? with
    | some c =>
      if 0 < c.strong then
        if c.val.ix < st.src.length then
          let p := pushSpot st c.val.ix
          let st2 := { p.1 with cells := setCellVal p.1.cells cid p.2 }
          let q := forwardRoots st2 rest
          (cid :: q.1, q.2)
        else forwardRoots { st with cells := decWeakc st.cells cid } rest
      else forwardRoots { st with cells := decWeakc st.cells cid } rest
    | none => forwardRoots st rest

/-- The closure passed to `foreach_ix` in the scan loop of `prim_gc_to`,
applied left to right over the indices owned by the object at destination
position `objIndex`: a `Present` target is forwarded and the index rewritten
to the fresh destination index, a `BrokenHeart` target only rewrites the
index, and an out-of-range target panics. -/
def forwardEdges {A : Type} (objIndex : Nat) (st : GcState A) :
    List Ix → Except RPanic (GcState A × List Ix)
  | [] => .ok (st, [])
  | p :: rest =>
    match st.src[p.ix]? with
    | some (Spot.Present _) =>
      let q := pushSpot st p.ix
      match forwardEdges objIndex q.1 rest with
      | .ok (st2, es) => .ok (st2, q.2 :: es)
      | .error err => .error err
    | some (Spot.BrokenHeart h) =>
      match forwardEdges objIndex st rest with
      | .ok (st2, es) => .ok (st2, h :: es)
      | .error err => .error err
    | none => .error (.invalidIndex p.ix objIndex)

/-- The Cheney scan loop of `prim_gc_to`.  The `fuel` argument only bounds the
recursion; each iteration strictly decreases
`presentCount src + dst.length - objIndex`, so any fuel at least that measure
computes the loop's real result (the fuel-exhausted branch is then dead). -/
def scanLoop {A : Type} : Nat → GcState A → Nat → Except RPanic (GcState A)
  | 0, st, _ => .ok st
  | fuel + 1, st, objIndex =>
    if objIndex < st.dst.length then
      match st.dst[objIndex]? with
      | some (Spot.Present e) =>
        match forwardEdges objIndex st e.t.edges with
        | .ok (st2, es) =>
          scanLoop fuel
            { st2 with
                dst := st2.dst.set objIndex
                  (Spot.Present { e with t := { e.t with edges := es } }) }
            (objIndex + 1)
        | .error err => .error err
      | _ => .error .unexpectedBrokenHeart
    else .ok st

/-- `Region::prim_gc_to`: capture the scan start before the roots are pushed,
forward the roots, then run the scan loop.  The supplied fuel
`src.length + dst.length` dominates the loop measure. -/
def primGcTo {A : Type} (st : GcState A) (roots : List Nat) :
    Except RPanic (GcState A × List Nat) :=
  let objIndex0 := st.dst.length
  let q := forwardRoots st roots
  match scanLoop (q.2.src.length + q.2.dst.length) q.2 objIndex0 with
  | .ok st2 => .ok (st2, q.1)
  | .error err => .error err

/-- `Vec::reserve`: grow amortized to at least `len + additional`. -/
def vecReserve (cap len additional : Nat) : Nat :=
  if len + additional ≤ cap then cap else max (2 * cap) (len + additional)

/-- `Region::take_valid_roots` (also the root filter in `ensure`): keep the
registry entries whose cell still upgrades, dropping the weak share of the
others. -/
def filterValidRoots (cs : List Cell) : List Nat → List Nat × List Cell
  | [] => ([], cs)
  | cid :: rest =>
    match cs[cid]? with
    | some c =>
      if 0 < c.strong then
        let q := filterValidRoots cs rest
        (cid :: q.1, q.2)
      else filterValidRoots (decWeakc cs cid) rest
    | none => filterValidRoots cs rest

/-- Dropping the exhausted source store (`self.data = dst` drops the old
vector): each remaining `Present` spot drops its user value (collected in
order) and its entry's strong anchor share; a `BrokenHeart` drops nothing. -/
def dropSpots {A : Type} (cs : List Cell) :
    List (Spot A) → List Cell × List A
  | [] => (cs, [])
  | Spot.Present e :: rest =>
    let cs1 := match e.rc with | some cid => decStrong cs cid | none => cs
    let q := dropSpots cs1 rest
    (q.1, e.t.payload :: q.2)
  | Spot.BrokenHeart _ :: rest => dropSpots cs rest

/-- `Region::gc`: collect into a fresh store of capacity `len`, filter the
registry, install the destination and drop the old store.  The payloads
dropped are returned alongside for observation. -/
def Region.gc {A : Type} (r : Region A) :
    Except RPanic (Region A × List A) :=
  let dstCap := vecReserve r.data.length 0 r.data.length
  match primGcTo ⟨r.data, [], r.cells⟩ r.roots with
  | .ok (st, kept) =>
    let q := filterValidRoots st.cells kept
    let d := dropSpots q.2 st.src
    .ok ({ data := st.dst, cap := dstCap, roots := q.1, cells := d.1 }, d.2)
  | .error err => .error err

/-- The collection guard of `Region::ensure`: a collection is triggered
exactly when the capacity is below `len + additional`. -/
def ensureCollects {A : Type} (r : Region A) (additional : Nat) : Bool :=
  decide (r.cap < r.data.length + additional)

/-- `Region::ensure`: return immediately when capacity suffices; otherwise
collect into a fresh store of capacity `len + max(len, additional)`. -/
def Region.ensure {A : Type} (r : Region A) (additional : Nat) :
    Except RPanic (Region A) :=
  if ensureCollects r additional then
    let dstCap := vecReserve (r.data.length + max r.data.length additional)
      0 r.data.length
    match primGcTo ⟨r.data, [], r.cells⟩ r.roots with
    | .ok (st, kept) =>
      let q := filterValidRoots st.cells kept
      let d := dropSpots q.2 st.src
      .ok { data := st.dst, cap := dstCap, roots := q.1, cells := d.1 }
    | .error err => .error err
  else .ok r

/-- `Vec::push`: no capacity change below capacity, amortized growth at it. -/
def vecPushCap (cap len : Nat) : Nat :=
  if len < cap then cap else max (2 * cap) (len + 1)

/-- `Region::alloci` (identity injection): ensure capacity for one element
(possibly collecting), invoke the factory on the post-collection region, push
a `Present` spot with no anchor, and hand back the `MutEntry` with the new
index and a dangling root cache. -/
def Region.alloci {A : Type} (r : Region A) (mk : Region A → Obj A) :
    Except RPanic (Region A × MutEntry) :=
  match r.ensure 1 with
  | .ok r1 =>
    let n := r1.data.length
    .ok ({ r1 with
            data := r1.data ++ [Spot.Present ⟨none, mk r1⟩],
            cap := vecPushCap r1.cap n },
         ⟨⟨n⟩, none⟩)
  | .error err => .error err

/-- `Region::alloc` is `alloci` at the identity injection. -/
def Region.alloc {A : Type} (r : Region A) (mk : Region A → Obj A) :
    Except RPanic (Region A × MutEntry) :=
  r.alloci mk

/-- `Region::new`. -/
def Region.new {A : Type} : Region A := ⟨[], 0, [], []⟩

/-- `Region::len`. -/
def Region.len {A : Type} (r : Region A) : Nat := r.data.length

/-- `Region::capacity`. -/
def Region.capacity {A : Type} (r : Region A) : Nat := r.cap

/-- The indices held by registry cells that still upgrade: the root set the
collector starts from. -/
def liveRootIxs {A : Type} (r : Region A) : List Nat :=
  r.roots.filterMap fun cid =>
    match r.cells[cid]? with
    | some c => if 0 < c.strong then some c.val.ix else none
    | none => none

/-- The successors of a position: the indices its object yields through
`foreach_ix`. -/
def succOf {A : Type} (data : List (Spot A)) (i : Nat) : List Nat :=
  match data[i]? with
  | some (Spot.Present e) => e.t.edges.map Ix.ix
  | _ => []

/-- Reachability from the root set through the traversal capability. -/
inductive Reaches {A : Type} (r : Region A) : Nat → Prop where
  | root {i : Nat} : i ∈ liveRootIxs r → Reaches r i
  | step {i j : Nat} : Reaches r i → j ∈ succOf r.data i → Reaches r j

/-- Whether a spot is `Present`. -/
def isPresent {A : Type} : Spot A → Bool
  | .Present _ => true
  | .BrokenHeart _ => false

/-- The number of `Present` spots of a store. -/
def presentCount {A : Type} (l : List (Spot A)) : Nat := l.countP isPresent

/-- The payloads of the `Present` spots of a store, in order. -/
def presentPayloads {A : Type} (l : List (Spot A)) : List A :=
  l.filterMap fun s =>
    match s with
    | .Present e => some e.t.payload
    | .BrokenHeart _ => none

/-- The anchor cell id of the entry at a position, when both exist. -/
def rcAt {A : Type} (r : Region A) (i : Nat) : Option Nat :=
  match r.data[i]? with
  | some (Spot.Present e) => e.rc
  | _ => none

/-- Steady state: every spot of the store is `Present`. -/
def allPresentB {A : Type} (r : Region A) : Bool := r.data.all isPresent

/-- Every entry anchor points to an existing cell holding the entry's own
index with exactly the entry's one strong share. -/
def rcValidB {A : Type} (r : Region A) : Bool :=
  (List.range r.data.length).all fun i =>
    match rcAt r i with
    | some cid =>
      match r.cells[cid]? with
      | some c => decide (c.val = ⟨i⟩) && decide (c.strong = 1)
      | none => false
    | none => true

/-- Distinct entries have distinct anchor cells. -/
def rcInjB {A : Type} (r : Region A) : Bool :=
  (List.range r.data.length).all fun i =>
    (List.range r.data.length).all fun i' =>
      decide (i = i') || !(rcAt r i).isSome || decide (rcAt r i ≠ rcAt r i')

/-- No registry cell is an entry anchor cell. -/
def rootsNotRcB {A : Type} (r : Region A) : Bool :=
  r.roots.all fun cid =>
    (List.range r.data.length).all fun i => decide (rcAt r i ≠ some cid)

/-- Every registry entry points to an existing cell. -/
def rootsCellB {A : Type} (r : Region A) : Bool :=
  r.roots.all fun cid => (r.cells[cid]?).isSome

/-- The registry holds no duplicate cell. -/
def rootsNodupB {A : Type} (r : Region A) : Bool := decide r.roots.Nodup

/-- Two distinct live registry cells hold distinct indices. -/
def rootsDisjB {A : Type} (r : Region A) : Bool :=
  r.roots.all fun cid =>
    r.roots.all fun cid' =>
      decide (cid = cid') ||
        match r.cells[cid]?, r.cells[cid']? with
        | some c, some c' =>
          decide (c.strong = 0) || decide (c'.strong = 0) ||
            decide (c.val ≠ c'.val)
        | _, _ => true

/-- Every live registry cell holds an in-range index. -/
def rootsOkB {A : Type} (r : Region A) : Bool :=
  r.roots.all fun cid =>
    match r.cells[cid]? with
    | some c => decide (c.strong = 0) || decide (c.val.ix < r.data.length)
    | none => true

/-- Every index owned by an object is in range of the store. -/
def edgesOkB {A : Type} (r : Region A) : Bool :=
  r.data.all fun s =>
    match s with
    | .Present e => e.t.edges.all fun p => decide (p.ix < r.data.length)
    | .BrokenHeart _ => true

/-- Distinct positions hold distinct payloads. -/
def payloadInjB {A : Type} [DecidableEq A] (r : Region A) : Bool :=
  (List.range r.data.length).all fun i =>
    (List.range r.data.length).all fun i' =>
      decide (i = i') ||
        match r.data[i]?, r.data[i']? with
        | some (.Present e), some (.Present e') =>
          decide (e.t.payload ≠ e'.t.payload)
        | _, _ => true

/-- The well-formedness checks of a steady-state region, except the range
check on live registry cells. -/
def wfNoRootsB {A : Type} (r : Region A) : Bool :=
  allPresentB r && rcValidB r && rcInjB r && rootsNotRcB r &&
    rootsCellB r && rootsNodupB r && rootsDisjB r

/-- Full steady-state well-formedness of a region. -/
def wfB {A : Type} (r : Region A) : Bool := wfNoRootsB r && rootsOkB r

/-- The common shape of the point updates on the cell heap. -/
def updCellF (f : Cell → Cell) (cs : List Cell) (cid : Nat) : List Cell :=
  match cs[cid]? with
  | some c => cs.set cid (f c)
  | none => cs

theorem setCellVal_eq_upd (cs : List Cell) (cid : Nat) (v : Ix) :
    setCellVal cs cid v = updCellF (fun c => { c with val := v }) cs cid := rfl

theorem decStrong_eq_upd (cs : List Cell) (cid : Nat) :
    decStrong cs cid = updCellF (fun c => { c with strong := c.strong - 1 }) cs cid := rfl

theorem incStrong_eq_upd (cs : List Cell) (cid : Nat) :
    incStrong cs cid = updCellF (fun c => { c with strong := c.strong + 1 }) cs cid := rfl

theorem decWeakc_eq_upd (cs : List Cell) (cid : Nat) :
    decWeakc cs cid = updCellF (fun c => { c with weakc := c.weakc - 1 }) cs cid := rfl

theorem incWeakc_eq_upd (cs : List Cell) (cid : Nat) :
    incWeakc cs cid = updCellF (fun c => { c with weakc := c.weakc + 1 }) cs cid := rfl

theorem updCellF_length (f : Cell → Cell) (cs : List Cell) (cid : Nat) :
    (updCellF f cs cid).length = cs.length := by
  unfold updCellF
  cases h : cs[cid]? with
  | none => rfl
  | some c => simp

theorem updCellF_get_self (f : Cell → Cell) {cs : List Cell} {cid : Nat}
    {c : Cell} (h : cs[cid]? = some c) :
    (updCellF f cs cid)[cid]? = some (f c) := by
  have hlt : cid < cs.length := (List.getElem?_eq_some.mp h).1
  unfold updCellF
  rw [h]
  rw [List.getElem?_set_eq hlt]

theorem updCellF_get_ne (f : Cell → Cell) (cs : List Cell) {cid cid' : Nat}
    (h : cid ≠ cid') : (updCellF f cs cid)[cid']? = cs[cid']? := by
  unfold updCellF
  cases hc : cs[cid]? with
  | none => rfl
  | some c => rw [List.getElem?_set_ne h]

theorem isPresent_present {A : Type} (e : Entry A) :
    isPresent (Spot.Present e) = true := rfl

theorem presentCount_set_bh {A : Type} {l : List (Spot A)} {i : Nat}
    {e : Entry A} (h : l[i]? = some (Spot.Present e)) (j : Ix) :
    presentCount (l.set i (Spot.BrokenHeart j)) + 1 = presentCount l := by
  obtain ⟨hlt, hget⟩ := List.getElem?_eq_some.mp h
  have hpos : 0 < List.countP isPresent l := by
    refine List.countP_pos.mpr ⟨Spot.Present e, List.getElem?_mem h, rfl⟩
  unfold presentCount
  rw [List.countP_set _ _ _ _ hlt, hget]
  simp [isPresent]
  omega

theorem presentCount_append {A : Type} (l₁ l₂ : List (Spot A)) :
    presentCount (l₁ ++ l₂) = presentCount l₁ + presentCount l₂ :=
  List.countP_append _ _ _

theorem presentCount_le_length {A : Type} (l : List (Spot A)) :
    presentCount l ≤ l.length := List.countP_le_length _

theorem allPresent_of {A : Type} {r : Region A} (h : allPresentB r = true) :
    ∀ (i : Nat) (s : Spot A), r.data[i]? = some s → ∃ e, s = Spot.Present e := by
  intro i s hs
  have hx := List.all_eq_true.mp h s (List.getElem?_mem hs)
  cases s with
  | Present e => exact ⟨e, rfl⟩
  | BrokenHeart j => simp [isPresent] at hx

theorem rcValid_of {A : Type} {r : Region A} (h : rcValidB r = true) :
    ∀ (i : Nat) (e : Entry A) (cid : Nat), r.data[i]? = some (Spot.Present e) → e.rc = some cid →
    ∃ c, r.cells[cid]? = some c ∧ c.val = ⟨i⟩ ∧ c.strong = 1 := by
  intro i e cid hi hrc
  have hlt : i < r.data.length := (List.getElem?_eq_some.mp hi).1
  have h2 := List.all_eq_true.mp h i (List.mem_range.mpr hlt)
  simp only [rcAt, hi, hrc] at h2
  cases hc : r.cells[cid]? with
  | none => rw [hc] at h2; simp at h2
  | some c =>
    rw [hc] at h2
    simp only [Bool.and_eq_true, decide_eq_true_eq] at h2
    exact ⟨c, rfl, h2.1, h2.2⟩

theorem rcInj_of {A : Type} {r : Region A} (h : rcInjB r = true) :
    ∀ (i i' : Nat) (e e' : Entry A) (cid : Nat), r.data[i]? = some (Spot.Present e) →
    r.data[i']? = some (Spot.Present e') →
    e.rc = some cid → e'.rc = some cid → i = i' := by
  intro i i' e e' cid hi hi' hrc hrc'
  have hlt : i < r.data.length := (List.getElem?_eq_some.mp hi).1
  have hlt' : i' < r.data.length := (List.getElem?_eq_some.mp hi').1
  have h2 := List.all_eq_true.mp
    (List.all_eq_true.mp h i (List.mem_range.mpr hlt)) i'
    (List.mem_range.mpr hlt')
  simp only [rcAt, hi, hi', hrc, hrc'] at h2
  by_contra hne
  simp [hne] at h2

theorem rootsNotRc_of {A : Type} {r : Region A} (h : rootsNotRcB r = true) :
    ∀ (cid : Nat), cid ∈ r.roots → ∀ (i : Nat) (e : Entry A), r.data[i]? = some (Spot.Present e) →
    e.rc ≠ some cid := by
  intro cid hcid i e hi hrc
  have hlt : i < r.data.length := (List.getElem?_eq_some.mp hi).1
  have h2 := List.all_eq_true.mp (List.all_eq_true.mp h cid hcid) i
    (List.mem_range.mpr hlt)
  simp only [rcAt, hi, decide_eq_true_eq] at h2
  exact h2 hrc

theorem rootsCell_of {A : Type} {r : Region A} (h : rootsCellB r = true) :
    ∀ (cid : Nat), cid ∈ r.roots → ∃ c, r.cells[cid]? = some c := by
  intro cid hcid
  have h2 := List.all_eq_true.mp h cid hcid
  cases hc : r.cells[cid]? with
  | none => rw [hc] at h2; simp at h2
  | some c => exact ⟨c, rfl⟩

theorem rootsNodup_of {A : Type} {r : Region A} (h : rootsNodupB r = true) :
    r.roots.Nodup := of_decide_eq_true h

theorem rootsDisj_of {A : Type} {r : Region A} (h : rootsDisjB r = true) :
    ∀ (cid cid' : Nat) (c c' : Cell), cid ∈ r.roots → cid' ∈ r.roots →
    r.cells[cid]? = some c → r.cells[cid']? = some c' →
    0 < c.strong → 0 < c'.strong → c.val = c'.val → cid = cid' := by
  intro cid cid' c c' hcid hcid' hc hc' hs hs' hv
  have h2 := List.all_eq_true.mp (List.all_eq_true.mp h cid hcid) cid' hcid'
  rw [hc, hc'] at h2
  by_contra hne
  have hs0 : c.strong ≠ 0 := by omega
  have hs0' : c'.strong ≠ 0 := by omega
  simp [hne, hs0, hs0', hv] at h2

theorem rootsOk_of {A : Type} {r : Region A} (h : rootsOkB r = true) :
    ∀ (cid : Nat) (c : Cell), cid ∈ r.roots → r.cells[cid]? = some c → 0 < c.strong →
    c.val.ix < r.data.length := by
  intro cid c hcid hc hs
  have h2 := List.all_eq_true.mp h cid hcid
  rw [hc] at h2
  have hs0 : c.strong ≠ 0 := by omega
  simp only [Bool.or_eq_true, decide_eq_true_eq] at h2
  rcases h2 with h2 | h2
  · exact absurd h2 hs0
  · exact h2

theorem edgesOk_of {A : Type} {r : Region A} (h : edgesOkB r = true) :
    ∀ (i : Nat) (e : Entry A), r.data[i]? = some (Spot.Present e) → ∀ (p : Ix), p ∈ e.t.edges →
    p.ix < r.data.length := by
  intro i e hi p hp
  have h2 := List.all_eq_true.mp h _ (List.getElem?_mem hi)
  simp only at h2
  have h3 := List.all_eq_true.mp h2 p hp
  exact of_decide_eq_true h3

theorem payloadInj_of {A : Type} [DecidableEq A] {r : Region A}
    (h : payloadInjB r = true) :
    ∀ (i i' : Nat) (e e' : Entry A), r.data[i]? = some (Spot.Present e) →
    r.data[i']? = some (Spot.Present e') →
    e.t.payload = e'.t.payload → i = i' := by
  intro i i' e e' hi hi' hpl
  have hlt : i < r.data.length := (List.getElem?_eq_some.mp hi).1
  have hlt' : i' < r.data.length := (List.getElem?_eq_some.mp hi').1
  have h2 := List.all_eq_true.mp
    (List.all_eq_true.mp h i (List.mem_range.mpr hlt)) i'
    (List.mem_range.mpr hlt')
  rw [hi, hi'] at h2
  by_contra hne
  simp [hne, hpl] at h2

theorem wfNoRoots_split {A : Type} {r : Region A} (h : wfNoRootsB r = true) :
    allPresentB r = true ∧ rcValidB r = true ∧ rcInjB r = true ∧
    rootsNotRcB r = true ∧ rootsCellB r = true ∧ rootsNodupB r = true ∧
    rootsDisjB r = true := by
  simp only [wfNoRootsB, Bool.and_eq_true] at h
  tauto

theorem wf_split {A : Type} {r : Region A} (h : wfB r = true) :
    wfNoRootsB r = true ∧ rootsOkB r = true := by
  simp only [wfB, Bool.and_eq_true] at h
  exact h

/-- During a collection, the object originally at source position `i` has been
relocated to destination position `j`: the source slot is the broken heart
carrying `j`. -/
def copiedTo {A : Type} (st : GcState A) (i j : Nat) : Prop :=
  st.src[i]? = some (Spot.BrokenHeart ⟨j⟩)

/-- A cell id that is the anchor cell of some entry of the region. -/
def IsEntryCell {A : Type} (r0 : Region A) (cid : Nat) : Prop :=
  ∃ (i : Nat) (e : Entry A), r0.data[i]? = some (Spot.Present e) ∧ e.rc = some cid

/-- The anchor of a relocated entry after its `push_spot`: an unobserved
anchor was cleared by `check_clear_rc` and its strong share dropped; an
observed one is kept and rewritten by `move_to` to the destination index. -/
def RcAfter {A : Type} (r0 : Region A) (e0 ePost : Entry A) (j : Nat)
    (cs : List Cell) : Prop :=
  (e0.rc = none → ePost.rc = none) ∧
  ∀ (cid : Nat) (c0 : Cell), e0.rc = some cid → r0.cells[cid]? = some c0 →
    (c0.weakc = 0 → ePost.rc = none ∧
      cs[cid]? = some { c0 with strong := c0.strong - 1 }) ∧
    (c0.weakc ≠ 0 → ePost.rc = some cid ∧
      cs[cid]? = some { c0 with val := ⟨j⟩ })

/-- Every index the object owned has been rewritten to the destination index
of its target. -/
def EdgesFwd {A : Type} (st : GcState A) (e0 ePost : Entry A) : Prop :=
  ePost.t.edges.length = e0.t.edges.length ∧
  ∀ (k : Nat) (p p' : Ix), e0.t.edges[k]? = some p →
    ePost.t.edges[k]? = some p' → copiedTo st p.ix p'.ix

/-- The collection invariant, relative to the region `r0` being collected,
holding between iterations of the scan loop with cursor `objIndex` (and with
`objIndex = 0` throughout the root phase). -/
structure Inv {A : Type} (r0 : Region A) (st : GcState A) (objIndex : Nat) :
    Prop where
  srcLen : st.src.length = r0.data.length
  cellsLen : st.cells.length = r0.cells.length
  objLe : objIndex ≤ st.dst.length
  refines : ∀ i : Nat, st.src[i]? = r0.data[i]? ∨ ∃ j, copiedTo st i j
  copiedLt : ∀ i j : Nat, copiedTo st i j → j < st.dst.length
  copiedInj : ∀ i i' j : Nat, copiedTo st i j → copiedTo st i' j → i = i'
  corr : ∀ j : Nat, j < st.dst.length →
    ∃ (i : Nat) (e0 ePost : Entry A),
      copiedTo st i j ∧ r0.data[i]? = some (Spot.Present e0) ∧
      st.dst[j]? = some (Spot.Present ePost) ∧
      ePost.t.payload = e0.t.payload ∧
      RcAfter r0 e0 ePost j st.cells ∧
      (objIndex ≤ j → ePost.t.edges = e0.t.edges) ∧
      (j < objIndex → EdgesFwd st e0 ePost)
  uncopiedCells : ∀ (i : Nat) (e0 : Entry A) (cid : Nat),
    r0.data[i]? = some (Spot.Present e0) → e0.rc = some cid →
    (¬∃ j : Nat, copiedTo st i j) → st.cells[cid]? = r0.cells[cid]?
  copiedReach : ∀ i j : Nat, copiedTo st i j → Reaches r0 i
  pres : presentCount st.src + st.dst.length = presentCount r0.data

/-- The well-formedness facts the collector proofs consume, in `Prop` form. -/
structure WfFacts {A : Type} (r0 : Region A) : Prop where
  allP : ∀ (i : Nat) (s : Spot A), r0.data[i]? = some s →
    ∃ e, s = Spot.Present e
  rcV : ∀ (i : Nat) (e : Entry A) (cid : Nat),
    r0.data[i]? = some (Spot.Present e) → e.rc = some cid →
    ∃ c, r0.cells[cid]? = some c ∧ c.val = ⟨i⟩ ∧ c.strong = 1
  rcI : ∀ (i i' : Nat) (e e' : Entry A) (cid : Nat),
    r0.data[i]? = some (Spot.Present e) →
    r0.data[i']? = some (Spot.Present e') →
    e.rc = some cid → e'.rc = some cid → i = i'
  rnr : ∀ (cid : Nat), cid ∈ r0.roots → ∀ (i : Nat) (e : Entry A),
    r0.data[i]? = some (Spot.Present e) → e.rc ≠ some cid
  rcell : ∀ (cid : Nat), cid ∈ r0.roots → ∃ c, r0.cells[cid]? = some c
  rnd : r0.roots.Nodup
  rdis : ∀ (cid cid' : Nat) (c c' : Cell), cid ∈ r0.roots → cid' ∈ r0.roots →
    r0.cells[cid]? = some c → r0.cells[cid']? = some c' →
    0 < c.strong → 0 < c'.strong → c.val = c'.val → cid = cid'

theorem wfFacts_of {A : Type} {r0 : Region A} (h : wfNoRootsB r0 = true) :
    WfFacts r0 := by
  obtain ⟨h1, h2, h3, h4, h5, h6, h7⟩ := wfNoRoots_split h
  exact ⟨allPresent_of h1, rcValid_of h2, rcInj_of h3, rootsNotRc_of h4,
    rootsCell_of h5, rootsNodup_of h6, rootsDisj_of h7⟩

theorem edgesFwd_mono {A : Type} {st st' : GcState A} {e0 ePost : Entry A}
    (hmono : ∀ i j : Nat, copiedTo st i j → copiedTo st' i j)
    (h : EdgesFwd st e0 ePost) : EdgesFwd st' e0 ePost :=
  ⟨h.1, fun k p p' hp hp' => hmono _ _ (h.2 k p p' hp hp')⟩

theorem rcAfter_stable {A : Type} {r0 : Region A} {e0 ePost : Entry A}
    {j : Nat} {cs cs' : List Cell}
    (hpr : ∀ cid : Nat, e0.rc = some cid → cs'[cid]? = cs[cid]?)
    (h : RcAfter r0 e0 ePost j cs) : RcAfter r0 e0 ePost j cs' := by
  refine ⟨h.1, fun cid c0 hrc hc0 => ?_⟩
  have h2 := h.2 cid c0 hrc hc0
  rw [hpr cid hrc]
  exact h2

/-- The collection invariant holds at the start, before any root is pushed. -/
theorem inv_init {A : Type} {r0 : Region A} (hwf : WfFacts r0) :
    Inv r0 ⟨r0.data, [], r0.cells⟩ 0 := by
  have hnc : ∀ i j : Nat,
      ¬ copiedTo (⟨r0.data, [], r0.cells⟩ : GcState A) i j := by
    intro i j hc
    obtain ⟨e, he⟩ := hwf.allP i _ hc
    simp at he
  refine ⟨rfl, rfl, Nat.le_refl 0, fun i => Or.inl rfl, ?_, ?_, ?_, ?_, ?_, ?_⟩
  · intro i j hc; exact absurd hc (hnc i j)
  · intro i i' j hc; exact absurd hc (hnc i j)
  · intro j hj; simp at hj
  · intro i e0 cid _ _ _; rfl
  · intro i j hc; exact absurd hc (hnc i j)
  · simp [presentCount]

/-- Core step lemma: pushing an uncopied `Present` source spot preserves the
collection invariant and records the new copy. -/
theorem pushSpot_spec {A : Type} {r0 : Region A} (hwf : WfFacts r0)
    {st : GcState A} {objIndex : Nat} (hinv : Inv r0 st objIndex)
    {i : Nat} {e0 : Entry A}
    (hsrc : st.src[i]? = some (Spot.Present e0))
    (hreach : Reaches r0 i) :
    ∃ st' : GcState A,
      pushSpot st i = (st', ⟨st.dst.length⟩) ∧
      Inv r0 st' objIndex ∧
      copiedTo st' i st.dst.length ∧
      st'.dst.length = st.dst.length + 1 ∧
      st'.src.length = st.src.length ∧
      st'.cells.length = st.cells.length ∧
      (∀ i' j : Nat, copiedTo st i' j → copiedTo st' i' j) ∧
      (∀ i' j : Nat, copiedTo st' i' j → i' = i ∨ copiedTo st i' j) ∧
      (∀ j : Nat, j < st.dst.length → st'.dst[j]? = st.dst[j]?) ∧
      st'.dst[st.dst.length]?.isSome ∧
      (∀ s : Spot A, st'.dst[st.dst.length]? = some s →
        ∃ eN : Entry A, s = Spot.Present eN ∧ eN.t = e0.t) ∧
      (∀ cid : Nat, e0.rc ≠ some cid → st'.cells[cid]? = st.cells[cid]?) ∧
      presentCount st'.src + st'.dst.length =
        presentCount st.src + st.dst.length := by
  have hiuncopied : ¬∃ j : Nat, copiedTo st i j := by
    rintro ⟨j, hj⟩
    rw [copiedTo] at hj
    rw [hsrc] at hj
    simp at hj
  have hsrc0 : r0.data[i]? = some (Spot.Present e0) := by
    rcases hinv.refines i with h | h
    · rw [← h]; exact hsrc
    · exact absurd h hiuncopied
  have hilt : i < st.src.length := (List.getElem?_eq_some.mp hsrc).1
  -- name the three possible outcomes of check_clear_rc / move_to
  have main : ∀ (eN : Entry A) (csN : List Cell),
      eN.t = e0.t →
      RcAfter r0 e0 eN st.dst.length csN →
      (∀ cid : Nat, e0.rc ≠ some cid → csN[cid]? = st.cells[cid]?) →
      csN.length = st.cells.length →
      (Inv r0 ⟨st.src.set i (Spot.BrokenHeart ⟨st.dst.length⟩),
        st.dst ++ [Spot.Present eN], csN⟩ objIndex) := by
    intro eN csN hF1 hF2 hF3 hF4
    set d := st.dst.length with hd
    have hmono : ∀ i' j : Nat, copiedTo st i' j →
        copiedTo (⟨st.src.set i (Spot.BrokenHeart ⟨d⟩),
          st.dst ++ [Spot.Present eN], csN⟩ : GcState A) i' j := by
      intro i' j hj
      have hne : i ≠ i' := by
        intro hh
        subst hh
        exact hiuncopied ⟨j, hj⟩
      rw [copiedTo] at hj ⊢
      simpa [List.getElem?_set_ne hne] using hj
    have hnewcop : copiedTo (⟨st.src.set i (Spot.BrokenHeart ⟨d⟩),
        st.dst ++ [Spot.Present eN], csN⟩ : GcState A) i d := by
      rw [copiedTo]
      simpa using List.getElem?_set_eq hilt
    have hcopchar : ∀ i' j : Nat,
        copiedTo (⟨st.src.set i (Spot.BrokenHeart ⟨d⟩),
          st.dst ++ [Spot.Present eN], csN⟩ : GcState A) i' j →
        (i' = i ∧ j = d) ∨ (i' ≠ i ∧ copiedTo st i' j) := by
      intro i' j hj
      rw [copiedTo] at hj
      by_cases hii : i' = i
      · subst hii
        rw [List.getElem?_set_eq hilt] at hj
        simp at hj
        exact Or.inl ⟨rfl, hj.symm⟩
      · rw [List.getElem?_set_ne (Ne.symm hii)] at hj
        exact Or.inr ⟨hii, hj⟩
    refine ⟨?_, ?_, ?_, ?_, ?_, ?_, ?_, ?_, ?_, ?_⟩
    · simpa using hinv.srcLen
    · rw [hF4]; exact hinv.cellsLen
    · exact le_trans hinv.objLe (by simp)
    · intro i'
      by_cases hii : i' = i
      · subst hii; exact Or.inr ⟨d, hnewcop⟩
      · rcases hinv.refines i' with h | h
        · left
          rw [List.getElem?_set_ne (Ne.symm hii)]
          exact h
        · right
          obtain ⟨j, hj⟩ := h
          exact ⟨j, hmono _ _ hj⟩
    · intro i' j hj
      rcases hcopchar i' j hj with ⟨_, hjd⟩ | ⟨_, hold⟩
      · subst hjd; simp
      · have := hinv.copiedLt i' j hold
        simp; omega
    · intro i' i'' j h1 h2
      rcases hcopchar i' j h1 with ⟨hi1, hj1⟩ | ⟨hi1, hold1⟩ <;>
        rcases hcopchar i'' j h2 with ⟨hi2, hj2⟩ | ⟨hi2, hold2⟩
      · rw [hi1, hi2]
      · exact absurd (hj1 ▸ hinv.copiedLt i'' j hold2) (by omega)
      · exact absurd (hj2 ▸ hinv.copiedLt i' j hold1) (by omega)
      · exact hinv.copiedInj i' i'' j hold1 hold2
    · intro j hj
      simp at hj
      by_cases hjd : j < d
      · obtain ⟨i1, e01, eP1, hc1, hr1, hdst1, hpl1, hrc1, hun1, hsc1⟩ :=
          hinv.corr j hjd
        refine ⟨i1, e01, eP1, hmono _ _ hc1, hr1, ?_, hpl1, ?_, hun1,
          fun hlt => edgesFwd_mono hmono (hsc1 hlt)⟩
        · rw [List.getElem?_append, if_pos hjd]
          exact hdst1
        · refine rcAfter_stable ?_ hrc1
          intro cid hcid
          refine hF3 cid ?_
          intro hcid0
          have hne : i1 ≠ i := by
            intro hh
            subst hh
            exact hiuncopied ⟨j, hc1⟩
          exact hne (hwf.rcI i1 i e01 e0 cid hr1 hsrc0 hcid hcid0)
      · have hjd2 : j = d := by omega
        subst hjd2
        refine ⟨i, e0, eN, hnewcop, hsrc0, ?_, by rw [hF1], hF2, ?_, ?_⟩
        · simpa using List.getElem?_concat_length st.dst (Spot.Present eN)
        · intro _; rw [hF1]
        · intro hlt
          exact absurd (lt_of_le_of_lt hinv.objLe hlt) (by omega)
    · intro i' e0' cid hr' hrc' hnc
      have hii : i' ≠ i := by
        intro hh
        subst hh
        exact hnc ⟨d, hnewcop⟩
      have hnc0 : ¬∃ j : Nat, copiedTo st i' j := by
        rintro ⟨j, hj⟩
        exact hnc ⟨j, hmono _ _ hj⟩
      have hne : e0.rc ≠ some cid := by
        intro hcid0
        exact hii (hwf.rcI i' i e0' e0 cid hr' hsrc0 hrc' hcid0)
      rw [hF3 cid hne]
      exact hinv.uncopiedCells i' e0' cid hr' hrc' hnc0
    · intro i' j hj
      rcases hcopchar i' j hj with ⟨hi1, _⟩ | ⟨_, hold⟩
      · subst hi1; exact hreach
      · exact hinv.copiedReach i' j hold
    · have hstep := presentCount_set_bh hsrc (⟨d⟩ : Ix)
      have hpres := hinv.pres
      simp only [List.length_append, List.length_singleton]
      omega
  -- now the three concrete outcomes
  rcases hrc : e0.rc with _ | cid
  · refine ⟨⟨st.src.set i (Spot.BrokenHeart ⟨st.dst.length⟩),
      st.dst ++ [Spot.Present e0], st.cells⟩, ?_, ?_, ?_, by simp, by simp,
      rfl, ?_, ?_, ?_, ?_, ?_, fun _ _ => rfl, ?_⟩
    · simp only [pushSpot, hsrc, checkClearRc, hrc, entryMoveTo]
    · refine main e0 st.cells rfl ⟨fun _ => hrc, ?_⟩ (fun _ _ => rfl) rfl
      intro cid c0 hcid
      rw [hrc] at hcid
      simp at hcid
    · rw [copiedTo]; simpa using List.getElem?_set_eq hilt
    · intro i' j hj
      have hne : i ≠ i' := by
        intro hh; subst hh; exact hiuncopied ⟨j, hj⟩
      rw [copiedTo] at hj ⊢
      simpa [List.getElem?_set_ne hne] using hj
    · intro i' j hj
      by_cases hii : i' = i
      · exact Or.inl hii
      · right
        rw [copiedTo] at hj ⊢
        rw [List.getElem?_set_ne (Ne.symm hii)] at hj
        exact hj
    · intro j hj
      rw [List.getElem?_append]
      simp [hj]
    · simp
    · intro s hs
      rw [List.getElem?_concat_length] at hs
      exact ⟨e0, by simpa using hs.symm, rfl⟩
    · have hstep := presentCount_set_bh hsrc (⟨st.dst.length⟩ : Ix)
      simp only [List.length_append, List.length_singleton]
      omega
  · obtain ⟨c0, hc0, hcv, hcs⟩ := hwf.rcV i e0 cid hsrc0 hrc
    have hcells_i : st.cells[cid]? = some c0 := by
      rw [hinv.uncopiedCells i e0 cid hsrc0 hrc hiuncopied]
      exact hc0
    have hrcuniq : ∀ (cid' : Nat) (c0' : Cell), e0.rc = some cid' →
        r0.cells[cid']? = some c0' → cid' = cid ∧ c0' = c0 := by
      intro cid' c0' h1 h2
      rw [hrc] at h1
      have : cid' = cid := by simpa using h1.symm
      subst this
      rw [hc0] at h2
      exact ⟨rfl, by simpa using h2.symm⟩
    by_cases hw : c0.weakc = 0
    · -- anchor unobserved: cleared, strong share dropped
      refine ⟨⟨st.src.set i (Spot.BrokenHeart ⟨st.dst.length⟩),
        st.dst ++ [Spot.Present { e0 with rc := none }],
        decStrong st.cells cid⟩, ?_, ?_, ?_, by simp, by simp,
        by rw [decStrong_eq_upd, updCellF_length], ?_, ?_, ?_, ?_, ?_, ?_, ?_⟩
      · simp [pushSpot, hsrc, checkClearRc, hrc, hcells_i, hw, entryMoveTo]
      · refine main { e0 with rc := none } (decStrong st.cells cid) rfl
          ⟨fun _ => rfl, ?_⟩ ?_
          (by rw [decStrong_eq_upd, updCellF_length])
        · intro cid' c0' h1 h2
          obtain ⟨hq1, hq2⟩ := hrcuniq cid' c0' h1 h2
          subst hq1; subst hq2
          refine ⟨fun _ => ⟨rfl, ?_⟩, fun hww => absurd hw hww⟩
          rw [decStrong_eq_upd, updCellF_get_self _ hcells_i]
        · intro cid' hne
          rw [decStrong_eq_upd]
          refine updCellF_get_ne _ _ ?_
          intro hh
          exact hne (by simp [hrc, hh])
      · rw [copiedTo]; simpa using List.getElem?_set_eq hilt
      · intro i' j hj
        have hne : i ≠ i' := by
          intro hh; subst hh; exact hiuncopied ⟨j, hj⟩
        rw [copiedTo] at hj ⊢
        simpa [List.getElem?_set_ne hne] using hj
      · intro i' j hj
        by_cases hii : i' = i
        · exact Or.inl hii
        · right
          rw [copiedTo] at hj ⊢
          rw [List.getElem?_set_ne (Ne.symm hii)] at hj
          exact hj
      · intro j hj
        rw [List.getElem?_append]
        simp [hj]
      · simp
      · intro s hs
        rw [List.getElem?_concat_length] at hs
        exact ⟨{ e0 with rc := none }, by simpa using hs.symm, rfl⟩
      · intro cid' hne
        rw [decStrong_eq_upd]
        refine updCellF_get_ne _ _ ?_
        intro hh
        exact hne (by simp [hrc, hh])
      · have hstep := presentCount_set_bh hsrc (⟨st.dst.length⟩ : Ix)
        simp only [List.length_append, List.length_singleton]
        omega
    · -- anchor observed: kept, cell rewritten to the destination index
      refine ⟨⟨st.src.set i (Spot.BrokenHeart ⟨st.dst.length⟩),
        st.dst ++ [Spot.Present e0],
        setCellVal st.cells cid ⟨st.dst.length⟩⟩, ?_, ?_, ?_, by simp, by simp,
        by rw [setCellVal_eq_upd, updCellF_length], ?_, ?_, ?_, ?_, ?_, ?_, ?_⟩
      · simp [pushSpot, hsrc, checkClearRc, hrc, hcells_i, hw, entryMoveTo]
      · refine main e0 (setCellVal st.cells cid ⟨st.dst.length⟩) rfl
          ⟨fun h => h, ?_⟩ ?_
          (by rw [setCellVal_eq_upd, updCellF_length])
        · intro cid' c0' h1 h2
          obtain ⟨hq1, hq2⟩ := hrcuniq cid' c0' h1 h2
          subst hq1; subst hq2
          refine ⟨fun hww => absurd hww hw, fun _ => ⟨hrc, ?_⟩⟩
          rw [setCellVal_eq_upd, updCellF_get_self _ hcells_i]
        · intro cid' hne
          rw [setCellVal_eq_upd]
          refine updCellF_get_ne _ _ ?_
          intro hh
          exact hne (by simp [hrc, hh])
      · rw [copiedTo]; simpa using List.getElem?_set_eq hilt
      · intro i' j hj
        have hne : i ≠ i' := by
          intro hh; subst hh; exact hiuncopied ⟨j, hj⟩
        rw [copiedTo] at hj ⊢
        simpa [List.getElem?_set_ne hne] using hj
      · intro i' j hj
        by_cases hii : i' = i
        · exact Or.inl hii
        · right
          rw [copiedTo] at hj ⊢
          rw [List.getElem?_set_ne (Ne.symm hii)] at hj
          exact hj
      · intro j hj
        rw [List.getElem?_append]
        simp [hj]
      · simp
      · intro s hs
        rw [List.getElem?_concat_length] at hs
        exact ⟨e0, by simpa using hs.symm, rfl⟩
      · intro cid' hne
        rw [setCellVal_eq_upd]
        refine updCellF_get_ne _ _ ?_
        intro hh
        exact hne (by simp [hrc, hh])
      · have hstep := presentCount_set_bh hsrc (⟨st.dst.length⟩ : Ix)
        simp only [List.length_append, List.length_singleton]
        omega

/-- The effect of the `foreach_ix` closure on a list of reachable indices:
the invariant is preserved, every processed index ends up rewritten to the
destination index of its (now copied) target, the destination only grows,
and cells that are not entry anchors are untouched. -/
theorem forwardEdges_spec {A : Type} {r0 : Region A} (hwf : WfFacts r0) :
    ∀ (es : List Ix) (st : GcState A) (objIndex : Nat),
    Inv r0 st objIndex →
    (∀ p : Ix, p ∈ es → Reaches r0 p.ix) →
    ∀ (st2 : GcState A) (es' : List Ix),
    forwardEdges objIndex st es = .ok (st2, es') →
    Inv r0 st2 objIndex ∧
    (∀ i j : Nat, copiedTo st i j → copiedTo st2 i j) ∧
    es'.length = es.length ∧
    (∀ (k : Nat) (p p' : Ix), es[k]? = some p → es'[k]? = some p' →
      copiedTo st2 p.ix p'.ix) ∧
    st.dst.length ≤ st2.dst.length ∧
    (∀ j : Nat, j < st.dst.length → st2.dst[j]? = st.dst[j]?) ∧
    (∀ cid : Nat, ¬IsEntryCell r0 cid → st2.cells[cid]? = st.cells[cid]?) ∧
    st2.src.length = st.src.length ∧
    st2.cells.length = st.cells.length ∧
    presentCount st2.src + st2.dst.length =
      presentCount st.src + st.dst.length := by
  intro es
  induction es with
  | nil =>
    intro st objIndex hinv _ st2 es' hrun
    rw [forwardEdges] at hrun
    injection hrun with hrun
    injection hrun with h1 h2
    subst h1
    subst h2
    refine ⟨hinv, fun _ _ h => h, rfl, ?_, le_refl _, fun _ _ => rfl,
      fun _ _ => rfl, rfl, rfl, rfl⟩
    intro k p p' hp _
    simp at hp
  | cons p rest ih =>
    intro st objIndex hinv hreach st2 es' hrun
    rw [forwardEdges] at hrun
    rcases hsp : st.src[p.ix]? with _ | s
    · rw [hsp] at hrun
      simp at hrun
    rcases s with e | h
    · -- Present: forward the target, rewrite the edge to the fresh index
      rw [hsp] at hrun
      simp only [] at hrun
      obtain ⟨st', hps, hinv', hcop', hdlen', hslen', hclen', hmono', hinvchar',
        hpre', hsomeN, hdescr, hcells', hcount'⟩ :=
        pushSpot_spec hwf hinv hsp (hreach p (by simp))
      rw [hps] at hrun
      rcases hrest : forwardEdges objIndex st' rest with err | q
      · rw [hrest] at hrun
        simp at hrun
      rcases q with ⟨stT, esT⟩
      rw [hrest] at hrun
      simp only [Except.ok.injEq, Prod.mk.injEq] at hrun
      obtain ⟨h1, h2⟩ := hrun
      subst h1
      subst h2
      obtain ⟨hinvT, hmonoT, hlenT, hfwdT, hdleT, hdprT, hcprT, hslT, hclT,
        hcntT⟩ := ih st' objIndex hinv'
        (fun q hq => hreach q (List.mem_cons_of_mem _ hq)) stT esT hrest
      have hmonoAll : ∀ i j : Nat, copiedTo st i j → copiedTo stT i j :=
        fun i j hj => hmonoT i j (hmono' i j hj)
      refine ⟨hinvT, hmonoAll, by simpa using hlenT, ?_, ?_, ?_, ?_, ?_, ?_, ?_⟩
      · intro k q q' hq hq'
        cases k with
        | zero =>
          simp at hq hq'
          subst hq
          subst hq'
          exact hmonoT _ _ hcop'
        | succ k =>
          simp at hq hq'
          exact hfwdT k q q' hq hq'
      · omega
      · intro j hj
        rw [hdprT j (by omega), hpre' j hj]
      · intro cid hcid
        rw [hcprT cid hcid]
        refine hcells' cid ?_
        intro hcontra
        -- the pushed entry is an entry of r0, so its anchor is an entry cell
        have hsrc0 : r0.data[p.ix]? = some (Spot.Present e) := by
          rcases hinv.refines p.ix with hsame | ⟨j, hj⟩
          · rw [← hsame]; exact hsp
          · rw [copiedTo, hsp] at hj
            simp at hj
        exact hcid ⟨p.ix, e, hsrc0, hcontra⟩
      · omega
      · omega
      · omega
    · -- BrokenHeart: only rewrite the edge to the recorded destination
      rw [hsp] at hrun
      simp only [] at hrun
      rcases hrest : forwardEdges objIndex st rest with err | q
      · rw [hrest] at hrun
        simp at hrun
      rcases q with ⟨stT, esT⟩
      rw [hrest] at hrun
      simp only [Except.ok.injEq, Prod.mk.injEq] at hrun
      obtain ⟨h1, h2⟩ := hrun
      subst h1
      subst h2
      obtain ⟨hinvT, hmonoT, hlenT, hfwdT, hdleT, hdprT, hcprT, hslT, hclT,
        hcntT⟩ := ih st objIndex hinv
        (fun q hq => hreach q (List.mem_cons_of_mem _ hq)) stT esT hrest
      refine ⟨hinvT, hmonoT, by simpa using hlenT, ?_, hdleT, hdprT, hcprT,
        hslT, hclT, hcntT⟩
      intro k q q' hq hq'
      cases k with
      | zero =>
        simp at hq hq'
        subst hq
        subst hq'
        exact hmonoT _ _ hsp
      | succ k =>
        simp at hq hq'
        exact hfwdT k q q' hq hq'

/-- Exchanging the scan cursor for the final one when the loop is about to
stop: at `objIndex = dst.length` every destination slot counts as scanned. -/
theorem inv_at_end {A : Type} {r0 : Region A} {st : GcState A}
    {objIndex : Nat} (hinv : Inv r0 st objIndex)
    (hend : st.dst.length ≤ objIndex) : Inv r0 st st.dst.length := by
  have heq : objIndex = st.dst.length := le_antisymm hinv.objLe hend
  subst heq
  refine ⟨hinv.srcLen, hinv.cellsLen, le_refl _, hinv.refines, hinv.copiedLt,
    hinv.copiedInj, ?_, hinv.uncopiedCells, hinv.copiedReach, hinv.pres⟩
  intro j hj
  obtain ⟨i, e0, eP, hc, hr, hdst, hpl, hrc, hun, hsc⟩ := hinv.corr j hj
  exact ⟨i, e0, eP, hc, hr, hdst, hpl, hrc, fun hle => absurd hj (by omega),
    fun _ => hsc hj⟩

/-- The collection invariant is indifferent to writes on cells that are not
entry anchor cells (in particular, on root cells). -/
theorem inv_cells_write {A : Type} {r0 : Region A} {st : GcState A}
    {objIndex : Nat} (hinv : Inv r0 st objIndex) (cs' : List Cell)
    (hlen : cs'.length = st.cells.length)
    (hpr : ∀ cid : Nat, IsEntryCell r0 cid → cs'[cid]? = st.cells[cid]?) :
    Inv r0 { st with cells := cs' } objIndex := by
  have hcop : ∀ i j : Nat,
      copiedTo st i j ↔ copiedTo { st with cells := cs' } i j := by
    intro i j
    rw [copiedTo, copiedTo]
  refine ⟨hinv.srcLen, by rw [hlen]; exact hinv.cellsLen, hinv.objLe,
    hinv.refines, hinv.copiedLt, hinv.copiedInj, ?_, ?_, hinv.copiedReach,
    hinv.pres⟩
  · intro j hj
    obtain ⟨i, e0, eP, hc, hr, hdst, hpl, hrc, hun, hsc⟩ := hinv.corr j hj
    refine ⟨i, e0, eP, hc, hr, hdst, hpl, ?_, hun,
      fun hlt => edgesFwd_mono (fun i j h => (hcop i j).mp h) (hsc hlt)⟩
    refine rcAfter_stable ?_ hrc
    intro cid hcid
    exact hpr cid ⟨i, e0, hr, hcid⟩
  · intro i e0 cid hr hcid hnc
    rw [hpr cid ⟨i, e0, hr, hcid⟩]
    refine hinv.uncopiedCells i e0 cid hr hcid ?_
    rintro ⟨j, hj⟩
    exact hnc ⟨j, (hcop i j).mp hj⟩

/-- The Cheney scan loop preserves the invariant and, given fuel at least the
loop measure, finishes with every destination slot scanned. -/
theorem scanLoop_spec {A : Type} {r0 : Region A} (hwf : WfFacts r0) :
    ∀ (fuel : Nat) (st : GcState A) (objIndex : Nat),
    Inv r0 st objIndex →
    presentCount st.src + st.dst.length ≤ fuel + objIndex →
    ∀ st2 : GcState A, scanLoop fuel st objIndex = .ok st2 →
    Inv r0 st2 st2.dst.length ∧
    (∀ i j : Nat, copiedTo st i j → copiedTo st2 i j) ∧
    (∀ cid : Nat, ¬IsEntryCell r0 cid → st2.cells[cid]? = st.cells[cid]?) ∧
    st2.src.length = st.src.length ∧
    st2.cells.length = st.cells.length := by
  intro fuel
  induction fuel with
  | zero =>
    intro st objIndex hinv hfuel st2 hrun
    rw [scanLoop] at hrun
    injection hrun with hrun
    subst hrun
    have hend : st.dst.length ≤ objIndex := by
      have := hinv.objLe
      omega
    exact ⟨inv_at_end hinv hend, fun _ _ h => h, fun _ _ => rfl, rfl, rfl⟩
  | succ fuel ih =>
    intro st objIndex hinv hfuel st2 hrun
    rw [scanLoop] at hrun
    by_cases hlt : objIndex < st.dst.length
    · rw [if_pos hlt] at hrun
      obtain ⟨i0, e0, eP, hc0, hr0, hdst0, hpl0, hrc0, hun0, hsc0⟩ :=
        hinv.corr objIndex hlt
      rw [hdst0] at hrun
      simp only [] at hrun
      have hEdges : eP.t.edges = e0.t.edges := hun0 (le_refl _)
      have hreachE : ∀ p : Ix, p ∈ eP.t.edges → Reaches r0 p.ix := by
        intro p hp
        rw [hEdges] at hp
        refine Reaches.step (hinv.copiedReach i0 objIndex hc0) ?_
        rw [succOf, hr0]
        exact List.mem_map.mpr ⟨p, hp, rfl⟩
      rcases hfe : forwardEdges objIndex st eP.t.edges with err | q
      · rw [hfe] at hrun
        simp at hrun
      rcases q with ⟨stE, es⟩
      rw [hfe] at hrun
      simp only [] at hrun
      obtain ⟨hinvE, hmonoE, hlenE, hfwdE, hdleE, hdprE, hcprE, hslE, hclE,
        hcntE⟩ := forwardEdges_spec hwf eP.t.edges st objIndex hinv hreachE
        stE es hfe
      set eP3 : Entry A := { eP with t := { eP.t with edges := es } } with heP3
      set st3 : GcState A :=
        { stE with dst := stE.dst.set objIndex (Spot.Present eP3) } with hst3
      have hobjlt3 : objIndex < stE.dst.length := lt_of_lt_of_le hlt hdleE
      have hcop3 : ∀ i j : Nat, copiedTo stE i j ↔ copiedTo st3 i j := by
        intro i j
        rw [copiedTo, copiedTo]
      have hinv3 : Inv r0 st3 (objIndex + 1) := by
        refine ⟨by simpa using hinvE.srcLen, by simpa using hinvE.cellsLen,
          ?_, hinvE.refines, ?_, hinvE.copiedInj, ?_, hinvE.uncopiedCells,
          hinvE.copiedReach, ?_⟩
        · simp only [hst3, List.length_set]
          omega
        · intro i j hj
          have := hinvE.copiedLt i j hj
          simp only [hst3, List.length_set]
          omega
        · intro j hj
          simp only [hst3, List.length_set] at hj
          by_cases hje : j = objIndex
          · subst hje
            obtain ⟨i1, e01, eP1, hc1, hr1, hdst1, hpl1, hrc1, hun1, hsc1⟩ :=
              hinvE.corr j hobjlt3
            have hdstSame : stE.dst[j]? = some (Spot.Present eP) := by
              rw [hdprE j hlt]
              exact hdst0
            rw [hdstSame] at hdst1
            have heP1 : eP1 = eP := by
              injection hdst1 with hh
              injection hh with hh2
              exact hh2.symm
            subst heP1
            refine ⟨i1, e01, eP3, hc1, hr1, ?_, ?_, ?_, ?_, ?_⟩
            · simp only [hst3]
              rw [List.getElem?_set_eq hobjlt3]
            · simpa [heP3] using hpl1
            · refine rcAfter_stable (fun _ _ => rfl) ?_
              exact hrc1
            · intro hcon
              omega
            · intro _
              -- the freshly scanned object: its edges are now forwarded
              have he01 : e01 = e0 := by
                have hi10 : i1 = i0 :=
                  hinvE.copiedInj i1 i0 j hc1 (hmonoE i0 j hc0)
                subst hi10
                rw [hr0] at hr1
                injection hr1 with hh
                injection hh with hh2
                exact hh2.symm
              subst he01
              constructor
              · simp only [heP3]
                rw [hlenE, hEdges]
              · intro k q q' hq hq'
                rw [← hcop3]
                refine hfwdE k q q' ?_ ?_
                · rw [← hEdges] at hq
                  exact hq
                · simpa [heP3] using hq'
          · obtain ⟨i1, e01, eP1, hc1, hr1, hdst1, hpl1, hrc1, hun1, hsc1⟩ :=
              hinvE.corr j hj
            refine ⟨i1, e01, eP1, hc1, hr1, ?_, hpl1, hrc1, ?_, ?_⟩
            · simp only [hst3]
              rw [List.getElem?_set_ne (Ne.symm hje)]
              exact hdst1
            · intro hle
              exact hun1 (by omega)
            · intro hltj
              have hcase : j < objIndex := by omega
              exact edgesFwd_mono (fun i j hj => (hcop3 i j).mp hj)
                (hsc1 hcase)
        · simp only [hst3, List.length_set]
          exact hinvE.pres
      have hfuel3 : presentCount st3.src + st3.dst.length ≤
          fuel + (objIndex + 1) := by
        have : presentCount st3.src + st3.dst.length =
            presentCount stE.src + stE.dst.length := by
          simp only [hst3, List.length_set]
        omega
      obtain ⟨hfin, hmono2, hcpr2, hsl2, hcl2⟩ :=
        ih st3 (objIndex + 1) hinv3 hfuel3 st2 hrun
      refine ⟨hfin, ?_, ?_, ?_, ?_⟩
      · intro i j hj
        exact hmono2 i j ((hcop3 i j).mp (hmonoE i j hj))
      · intro cid hcid
        rw [hcpr2 cid hcid]
        simp only [hst3]
        exact hcprE cid hcid
      · simp only [hst3] at hsl2
        omega
      · simp only [hst3] at hcl2
        omega
    · rw [if_neg hlt] at hrun
      injection hrun with hrun
      subst hrun
      exact ⟨inv_at_end hinv (by omega), fun _ _ h => h, fun _ _ => rfl,
        rfl, rfl⟩

/-- The root-forwarding phase: every remaining registry entry is settled.  A
live in-range root has its target copied and its cell set to the destination
index and is kept; a dead or out-of-range root is dropped, its weak share
released.  Cells that are neither entry anchors nor remaining registry cells
are untouched. -/
theorem forwardRoots_spec {A : Type} {r0 : Region A} (hwf : WfFacts r0) :
    ∀ (remaining : List Nat) (st : GcState A),
    Inv r0 st 0 →
    (∀ cid : Nat, cid ∈ remaining → cid ∈ r0.roots) →
    remaining.Nodup →
    (∀ cid : Nat, cid ∈ remaining → st.cells[cid]? = r0.cells[cid]?) →
    (∀ (cid : Nat) (c0 : Cell), cid ∈ remaining → r0.cells[cid]? = some c0 →
      0 < c0.strong → c0.val.ix < r0.data.length →
      ¬∃ j : Nat, copiedTo st c0.val.ix j) →
    ∀ (kept : List Nat) (st2 : GcState A),
    forwardRoots st remaining = (kept, st2) →
    Inv r0 st2 0 ∧
    (∀ i j : Nat, copiedTo st i j → copiedTo st2 i j) ∧
    (∀ (cid : Nat) (c0 : Cell), cid ∈ remaining → r0.cells[cid]? = some c0 →
      (0 < c0.strong → c0.val.ix < r0.data.length →
        cid ∈ kept ∧ ∃ j : Nat, copiedTo st2 c0.val.ix j ∧
          st2.cells[cid]? = some { c0 with val := ⟨j⟩ }) ∧
      (c0.strong = 0 ∨ r0.data.length ≤ c0.val.ix →
        cid ∉ kept ∧
          st2.cells[cid]? = some { c0 with weakc := c0.weakc - 1 })) ∧
    (∀ cid : Nat, cid ∈ kept → cid ∈ remaining) ∧
    (∀ cid : Nat, ¬IsEntryCell r0 cid → cid ∉ remaining →
      st2.cells[cid]? = st.cells[cid]?) ∧
    st2.src.length = st.src.length ∧
    st2.cells.length = st.cells.length ∧
    presentCount st2.src + st2.dst.length =
      presentCount st.src + st.dst.length := by
  intro remaining
  induction remaining with
  | nil =>
    intro st hinv _ _ _ _ kept st2 hrun
    rw [forwardRoots] at hrun
    injection hrun with h1 h2
    subst h1
    subst h2
    refine ⟨hinv, fun _ _ h => h, ?_, ?_, fun _ _ _ => rfl, rfl, rfl, rfl⟩
    · intro cid c0 hmem
      simp at hmem
    · intro cid hmem
      simp at hmem
  | cons cid rest ih =>
    intro st hinv hsub hnd hprist huncop kept st2 hrun
    have hroot : cid ∈ r0.roots := hsub cid (by simp)
    obtain ⟨c0, hc0⟩ := hwf.rcell cid hroot
    have hstc : st.cells[cid]? = some c0 := by
      rw [hprist cid (by simp)]
      exact hc0
    have hnotentry : ¬IsEntryCell r0 cid := by
      rintro ⟨i, e, hie, hrc⟩
      exact hwf.rnr cid hroot i e hie hrc
    have hndrest : rest.Nodup := (List.nodup_cons.mp hnd).2
    have hcidrest : cid ∉ rest := (List.nodup_cons.mp hnd).1
    rw [forwardRoots] at hrun
    simp only [hstc] at hrun
    by_cases hstrong : 0 < c0.strong
    · rw [if_pos hstrong] at hrun
      by_cases hinr : c0.val.ix < st.src.length
      · -- live, in range: the root's target is forwarded, the root kept
        rw [if_pos hinr] at hrun
        have hinr0 : c0.val.ix < r0.data.length := by
          rw [← hinv.srcLen]
          exact hinr
        have htu : ¬∃ j : Nat, copiedTo st c0.val.ix j :=
          huncop cid c0 (by simp) hc0 hstrong hinr0
        have hsame : st.src[c0.val.ix]? = r0.data[c0.val.ix]? := by
          rcases hinv.refines c0.val.ix with h | h
          · exact h
          · exact absurd h htu
        have hs0 : r0.data[c0.val.ix]? = some (r0.data[c0.val.ix]) :=
          List.getElem?_eq_getElem hinr0
        obtain ⟨e0, he0⟩ := hwf.allP _ _ hs0
        have hsrcp : st.src[c0.val.ix]? = some (Spot.Present e0) := by
          rw [hsame, hs0, he0]
        have hreach : Reaches r0 c0.val.ix := by
          refine Reaches.root ?_
          rw [liveRootIxs]
          refine List.mem_filterMap.mpr ⟨cid, hroot, ?_⟩
          rw [hc0]
          simp [hstrong]
        obtain ⟨st', hps, hinv', hcop', hdlen', hslen', hclen', hmono',
          hinvchar', hpre', hsomeN, hdescr, hcells', hcount'⟩ :=
          pushSpot_spec hwf hinv hsrcp hreach
        have he0rc : ∀ cid' : Nat, cid' ∈ r0.roots → e0.rc ≠ some cid' := by
          intro cid' hm
          refine hwf.rnr cid' hm c0.val.ix e0 ?_
          rw [hs0, he0]
        simp only [hps] at hrun
        have hinv2 : Inv r0
            { st' with cells := setCellVal st'.cells cid ⟨st.dst.length⟩ }
            0 := by
          refine inv_cells_write hinv' _ ?_ ?_
          · rw [setCellVal_eq_upd, updCellF_length]
          · intro cid' hent
            rw [setCellVal_eq_upd]
            refine updCellF_get_ne _ _ ?_
            intro hh
            subst hh
            exact hnotentry hent
        have hprist2 : ∀ cid' : Nat, cid' ∈ rest →
            (setCellVal st'.cells cid ⟨st.dst.length⟩)[cid']? =
              r0.cells[cid']? := by
          intro cid' hm
          rw [setCellVal_eq_upd, updCellF_get_ne _ _ (by
            intro hh
            subst hh
            exact hcidrest hm)]
          rw [hcells' cid' (he0rc cid' (hsub cid' (by simp [hm])))]
          exact hprist cid' (by simp [hm])
        have huncop2 : ∀ (cid' : Nat) (c0' : Cell), cid' ∈ rest →
            r0.cells[cid']? = some c0' → 0 < c0'.strong →
            c0'.val.ix < r0.data.length →
            ¬∃ j : Nat, copiedTo
              { st' with cells := setCellVal st'.cells cid ⟨st.dst.length⟩ }
              c0'.val.ix j := by
          rintro cid' c0' hm hc0' hs' hr' ⟨j, hj⟩
          have hj' : copiedTo st' c0'.val.ix j := hj
          rcases hinvchar' _ _ hj' with heq | hold
          · have hvv : c0.val = c0'.val := congrArg Ix.mk heq.symm
            have : cid = cid' :=
              hwf.rdis cid cid' c0 c0' hroot (hsub cid' (by simp [hm]))
                hc0 hc0' hstrong hs' hvv
            subst this
            exact hcidrest hm
          · exact huncop cid' c0' (by simp [hm]) hc0' hs' hr' ⟨j, hold⟩
        obtain ⟨hinvT, hmonoT, hspecT, hkmT, hcprT, hslT, hclT, hcntT⟩ :=
          ih { st' with cells := setCellVal st'.cells cid ⟨st.dst.length⟩ }
            hinv2 (fun c hm => hsub c (by simp [hm])) hndrest hprist2 huncop2
            (forwardRoots
              { st' with cells := setCellVal st'.cells cid ⟨st.dst.length⟩ }
              rest).1
            (forwardRoots
              { st' with cells := setCellVal st'.cells cid ⟨st.dst.length⟩ }
              rest).2 rfl
        rw [Prod.mk.injEq] at hrun
        obtain ⟨h1, h2⟩ := hrun
        subst h1
        subst h2
        have hcellmid : (setCellVal st'.cells cid ⟨st.dst.length⟩)[cid]? =
            some { c0 with val := ⟨st.dst.length⟩ } := by
          rw [setCellVal_eq_upd]
          refine updCellF_get_self _ ?_
          rw [hcells' cid (he0rc cid hroot)]
          exact hstc
        refine ⟨hinvT, ?_, ?_, ?_, ?_, ?_, ?_, ?_⟩
        · intro i j hj
          exact hmonoT i j (hmono' i j hj)
        · intro cid' c0' hm hc0'
          rcases List.mem_cons.mp hm with hm1 | hm1
          · subst hm1
            have hc0eq : c0' = c0 := by
              rw [hc0] at hc0'
              injection hc0' with hh
              exact hh.symm
            subst hc0eq
            constructor
            · intro _ _
              refine ⟨by simp, st.dst.length, hmonoT _ _ hcop', ?_⟩
              rw [hcprT cid' hnotentry hcidrest]
              exact hcellmid
            · intro hdead
              rcases hdead with h | h
              · omega
              · omega
          · obtain ⟨hlive, hdead⟩ := hspecT cid' c0' hm1 hc0'
            have hne : cid' ≠ cid := by
              intro hh
              subst hh
              exact hcidrest hm1
            constructor
            · intro hs hr
              exact ⟨List.mem_cons_of_mem _ (hlive hs hr).1, (hlive hs hr).2⟩
            · intro hd
              refine ⟨?_, (hdead hd).2⟩
              intro hmm
              rcases List.mem_cons.mp hmm with hh | hh
              · exact hne hh
              · exact (hdead hd).1 hh
        · intro c hm
          rcases List.mem_cons.mp hm with hh | hh
          · simp [hh]
          · exact List.mem_cons_of_mem _ (hkmT c hh)
        · intro cid' hent hnm
          have hnrest : cid' ∉ rest := fun hh => hnm (by simp [hh])
          have hnc : cid' ≠ cid := fun hh => hnm (by simp [hh])
          rw [hcprT cid' hent hnrest, setCellVal_eq_upd,
            updCellF_get_ne _ _ (Ne.symm hnc)]
          refine hcells' cid' ?_
          intro hh
          exact hent ⟨c0.val.ix, e0, by rw [hs0, he0], hh⟩
        · rw [hslT]
          exact hslen'
        · rw [hclT, setCellVal_eq_upd, updCellF_length]
          exact hclen'
        · rw [hcntT]
          exact hcount'
      · -- live but out of range: `src.get_mut(ix)?` drops the root silently
        rw [if_neg hinr] at hrun
        have hinvD : Inv r0 { st with cells := decWeakc st.cells cid } 0 := by
          refine inv_cells_write hinv _ ?_ ?_
          · rw [decWeakc_eq_upd, updCellF_length]
          · intro cid' hent
            rw [decWeakc_eq_upd]
            refine updCellF_get_ne _ _ ?_
            intro hh
            subst hh
            exact hnotentry hent
        have hpristD : ∀ cid' : Nat, cid' ∈ rest →
            (decWeakc st.cells cid)[cid']? = r0.cells[cid']? := by
          intro cid' hm
          rw [decWeakc_eq_upd, updCellF_get_ne _ _ (by
            intro hh
            subst hh
            exact hcidrest hm)]
          exact hprist cid' (by simp [hm])
        obtain ⟨hinvT, hmonoT, hspecT, hkmT, hcprT, hslT, hclT, hcntT⟩ :=
          ih { st with cells := decWeakc st.cells cid } hinvD
            (fun c hm => hsub c (by simp [hm])) hndrest hpristD
            (fun cid' c0' hm hc0' hs' hr' => huncop cid' c0'
              (by simp [hm]) hc0' hs' hr')
            kept st2 hrun
        refine ⟨hinvT, ?_, ?_, ?_, ?_, ?_, ?_, ?_⟩
        · intro i j hj
          exact hmonoT i j hj
        · intro cid' c0' hm hc0'
          rcases List.mem_cons.mp hm with hm1 | hm1
          · subst hm1
            have hc0eq : c0' = c0 := by
              rw [hc0] at hc0'
              injection hc0' with hh
              exact hh.symm
            subst hc0eq
            have hinr0 : r0.data.length ≤ c0'.val.ix := by
              have hsl := hinv.srcLen
              omega
            constructor
            · intro _ hr
              omega
            · intro _
              refine ⟨fun hmm => hcidrest (hkmT cid' hmm), ?_⟩
              rw [hcprT cid' hnotentry hcidrest, decWeakc_eq_upd,
                updCellF_get_self _ hstc]
          · obtain ⟨hlive, hdead⟩ := hspecT cid' c0' hm1 hc0'
            exact ⟨hlive, hdead⟩
        · intro c hm
          exact List.mem_cons_of_mem _ (hkmT c hm)
        · intro cid' hent hnm
          have hnrest : cid' ∉ rest := fun hh => hnm (by simp [hh])
          have hnc : cid' ≠ cid := fun hh => hnm (by simp [hh])
          rw [hcprT cid' hent hnrest, decWeakc_eq_upd,
            updCellF_get_ne _ _ (Ne.symm hnc)]
        · exact hslT
        · rw [hclT, decWeakc_eq_upd, updCellF_length]
        · exact hcntT
    · -- the upgrade failed: every Root was dropped; unregister silently
      rw [if_neg hstrong] at hrun
      have hinvD : Inv r0 { st with cells := decWeakc st.cells cid } 0 := by
        refine inv_cells_write hinv _ ?_ ?_
        · rw [decWeakc_eq_upd, updCellF_length]
        · intro cid' hent
          rw [decWeakc_eq_upd]
          refine updCellF_get_ne _ _ ?_
          intro hh
          subst hh
          exact hnotentry hent
      have hpristD : ∀ cid' : Nat, cid' ∈ rest →
          (decWeakc st.cells cid)[cid']? = r0.cells[cid']? := by
        intro cid' hm
        rw [decWeakc_eq_upd, updCellF_get_ne _ _ (by
          intro hh
          subst hh
          exact hcidrest hm)]
        exact hprist cid' (by simp [hm])
      obtain ⟨hinvT, hmonoT, hspecT, hkmT, hcprT, hslT, hclT, hcntT⟩ :=
        ih { st with cells := decWeakc st.cells cid } hinvD
          (fun c hm => hsub c (by simp [hm])) hndrest hpristD
          (fun cid' c0' hm hc0' hs' hr' => huncop cid' c0'
            (by simp [hm]) hc0' hs' hr')
          kept st2 hrun
      refine ⟨hinvT, ?_, ?_, ?_, ?_, ?_, ?_, ?_⟩
      · intro i j hj
        exact hmonoT i j hj
      · intro cid' c0' hm hc0'
        rcases List.mem_cons.mp hm with hm1 | hm1
        · subst hm1
          have hc0eq : c0' = c0 := by
            rw [hc0] at hc0'
            injection hc0' with hh
            exact hh.symm
          subst hc0eq
          constructor
          · intro hs _
            omega
          · intro _
            refine ⟨fun hmm => hcidrest (hkmT cid' hmm), ?_⟩
            rw [hcprT cid' hnotentry hcidrest, decWeakc_eq_upd,
              updCellF_get_self _ hstc]
        · obtain ⟨hlive, hdead⟩ := hspecT cid' c0' hm1 hc0'
          exact ⟨hlive, hdead⟩
      · intro c hm
        exact List.mem_cons_of_mem _ (hkmT c hm)
      · intro cid' hent hnm
        have hnrest : cid' ∉ rest := fun hh => hnm (by simp [hh])
        have hnc : cid' ≠ cid := fun hh => hnm (by simp [hh])
        rw [hcprT cid' hent hnrest, decWeakc_eq_upd,
          updCellF_get_ne _ _ (Ne.symm hnc)]
      · exact hslT
      · rw [hclT, decWeakc_eq_upd, updCellF_length]
      · exact hcntT

/-- A complete collection run: the invariant at a fully scanned state, the
settlement of every registry entry, and completeness — every reachable
position was copied. -/
theorem primGcTo_spec {A : Type} {r0 : Region A} (hwf : WfFacts r0)
    {stF : GcState A} {kept : List Nat}
    (hrun : primGcTo ⟨r0.data, [], r0.cells⟩ r0.roots = .ok (stF, kept)) :
    Inv r0 stF stF.dst.length ∧
    (∀ (cid : Nat) (c0 : Cell), cid ∈ r0.roots → r0.cells[cid]? = some c0 →
      (0 < c0.strong → c0.val.ix < r0.data.length →
        cid ∈ kept ∧ ∃ j : Nat, copiedTo stF c0.val.ix j ∧
          stF.cells[cid]? = some { c0 with val := ⟨j⟩ }) ∧
      (c0.strong = 0 ∨ r0.data.length ≤ c0.val.ix →
        cid ∉ kept ∧
          stF.cells[cid]? = some { c0 with weakc := c0.weakc - 1 })) ∧
    (∀ cid : Nat, cid ∈ kept → cid ∈ r0.roots) ∧
    ((∀ (cid : Nat) (c : Cell), cid ∈ r0.roots → r0.cells[cid]? = some c →
        0 < c.strong → c.val.ix < r0.data.length) →
      ∀ i : Nat, Reaches r0 i → ∃ j : Nat, copiedTo stF i j) := by
  have hnc : ∀ i j : Nat,
      ¬ copiedTo (⟨r0.data, [], r0.cells⟩ : GcState A) i j := by
    intro i j hc
    obtain ⟨e, he⟩ := hwf.allP i _ hc
    simp at he
  rw [primGcTo] at hrun
  simp only [List.length_nil] at hrun
  rcases hq : forwardRoots (⟨r0.data, [], r0.cells⟩ : GcState A) r0.roots
    with ⟨kept0, st1⟩
  rw [hq] at hrun
  obtain ⟨hinv1, hmono1, hspec1, hkm1, hcpr1, hsl1, hcl1, hcnt1⟩ :=
    forwardRoots_spec hwf r0.roots ⟨r0.data, [], r0.cells⟩ (inv_init hwf)
      (fun _ h => h) hwf.rnd (fun _ _ => rfl)
      (fun cid c0 _ _ _ _ => by rintro ⟨j, hj⟩; exact hnc c0.val.ix j hj)
      kept0 st1 hq
  rcases hscan : scanLoop (st1.src.length + st1.dst.length) st1 0
    with err | st2
  · rw [hscan] at hrun
    simp at hrun
  rw [hscan] at hrun
  simp only [Except.ok.injEq, Prod.mk.injEq] at hrun
  obtain ⟨h1, h2⟩ := hrun
  subst h2
  obtain ⟨hinvF, hmono2, hcpr2, hsl2, hcl2⟩ :=
    scanLoop_spec hwf (st1.src.length + st1.dst.length) st1 0 hinv1
      (by have := presentCount_le_length st1.src; omega) st2 hscan
  rw [← h1]
  have hnotentryRoot : ∀ cid : Nat, cid ∈ r0.roots → ¬IsEntryCell r0 cid := by
    intro cid hm
    rintro ⟨i, e, hie, hrc⟩
    exact hwf.rnr cid hm i e hie hrc
  refine ⟨hinvF, ?_, hkm1, ?_⟩
  · intro cid c0 hm hc0
    obtain ⟨hlive, hdead⟩ := hspec1 cid c0 hm hc0
    constructor
    · intro hs hr
      obtain ⟨hk, j, hc, hcell⟩ := hlive hs hr
      refine ⟨hk, j, hmono2 _ _ hc, ?_⟩
      rw [hcpr2 cid (hnotentryRoot cid hm)]
      exact hcell
    · intro hd
      obtain ⟨hk, hcell⟩ := hdead hd
      refine ⟨hk, ?_⟩
      rw [hcpr2 cid (hnotentryRoot cid hm)]
      exact hcell
  · intro hrOk i hreach
    induction hreach with
    | root hmem =>
      rw [liveRootIxs] at hmem
      obtain ⟨cid, hcid, hmk⟩ := List.mem_filterMap.mp hmem
      rcases hc : r0.cells[cid]? with _ | c0
      · simp [hc] at hmk
      simp only [hc] at hmk
      by_cases hs : 0 < c0.strong
      · rw [if_pos hs] at hmk
        injection hmk with hmk
        subst hmk
        obtain ⟨_, j, hcj, _⟩ :=
          (hspec1 cid c0 hcid hc).1 hs (hrOk cid c0 hcid hc hs)
        exact ⟨j, hmono2 _ _ hcj⟩
      · rw [if_neg hs] at hmk
        simp at hmk
    | step hr hsucc ih2 =>
      obtain ⟨j, hj⟩ := ih2
      have hjlt : j < st2.dst.length := hinvF.copiedLt _ j hj
      obtain ⟨i1, e01, eP1, hc1, hr1, hdst1, hpl1, hrc1, hun1, hsc1⟩ :=
        hinvF.corr j hjlt
      have hi1 : i1 = _ := hinvF.copiedInj i1 _ j hc1 hj
      subst hi1
      rw [succOf, hr1] at hsucc
      obtain ⟨p, hp, hpix⟩ := List.mem_map.mp hsucc
      obtain ⟨k, hk⟩ := List.mem_iff_getElem?.mp hp
      have hfwd := hsc1 hjlt
      have hklt : k < eP1.t.edges.length := by
        rw [hfwd.1]
        exact (List.getElem?_eq_some.mp hk).1
      have hk2 : eP1.t.edges[k]? = some (eP1.t.edges[k]) :=
        List.getElem?_eq_getElem hklt
      have hcp := hfwd.2 k p (eP1.t.edges[k]) hk hk2
      subst hpix
      exact ⟨(eP1.t.edges[k]).ix, hcp⟩

theorem filterValid_all_live :
    ∀ (l : List Nat) (cs : List Cell),
    (∀ cid : Nat, cid ∈ l → ∃ c, cs[cid]? = some c ∧ 0 < c.strong) →
    filterValidRoots cs l = (l, cs) := by
  intro l
  induction l with
  | nil => intro cs _; rfl
  | cons cid rest ih =>
    intro cs h
    obtain ⟨c, hc, hs⟩ := h cid (by simp)
    rw [filterValidRoots]
    simp only [hc]
    rw [if_pos hs, ih cs (fun c hm => h c (by simp [hm]))]

theorem filterValid_subset :
    ∀ (l : List Nat) (cs : List Cell) (kept : List Nat) (cs' : List Cell),
    filterValidRoots cs l = (kept, cs') →
    ∀ cid : Nat, cid ∈ kept → cid ∈ l := by
  intro l
  induction l with
  | nil =>
    intro cs kept cs' h cid hm
    rw [filterValidRoots] at h
    injection h with h1 _
    subst h1
    simp at hm
  | cons c rest ih =>
    intro cs kept cs' h cid hm
    rw [filterValidRoots] at h
    rcases hc : cs[c]? with _ | cc
    · simp only [hc] at h
      exact List.mem_cons_of_mem _ (ih cs kept cs' h cid hm)
    simp only [hc] at h
    by_cases hs : 0 < cc.strong
    · rw [if_pos hs] at h
      injection h with h1 h2
      subst h1
      rcases List.mem_cons.mp hm with hh | hh
      · simp [hh]
      · exact List.mem_cons_of_mem _
          (ih cs _ _ (by rw [Prod.mk.injEq]; exact ⟨rfl, h2⟩) cid hh)
    · rw [if_neg hs] at h
      exact List.mem_cons_of_mem _ (ih _ kept cs' h cid hm)

theorem dropSpots_payloads {A : Type} :
    ∀ (l : List (Spot A)) (cs : List Cell),
    (dropSpots cs l).2 = presentPayloads l := by
  intro l
  induction l with
  | nil => intro cs; rfl
  | cons s rest ih =>
    intro cs
    cases s with
    | Present e =>
      rw [dropSpots]
      simp only [presentPayloads, List.filterMap_cons]
      simp only [presentPayloads] at ih
      rw [ih]
    | BrokenHeart j =>
      rw [dropSpots]
      simp only [presentPayloads, List.filterMap_cons]
      simp only [presentPayloads] at ih
      rw [ih]

theorem dropSpots_cells_pr {A : Type} :
    ∀ (l : List (Spot A)) (cs : List Cell) (cid : Nat),
    (∀ (k : Nat) (e : Entry A), l[k]? = some (Spot.Present e) →
      e.rc ≠ some cid) →
    (dropSpots cs l).1[cid]? = cs[cid]? := by
  intro l
  induction l with
  | nil => intro cs cid _; rfl
  | cons s rest ih =>
    intro cs cid h
    cases s with
    | Present e =>
      rw [dropSpots]
      have hne : e.rc ≠ some cid := h 0 e (by simp)
      have hshift : ∀ (k : Nat) (e' : Entry A),
          rest[k]? = some (Spot.Present e') → e'.rc ≠ some cid := by
        intro k e' hk
        exact h (k + 1) e' (by rwa [List.getElem?_cons_succ])
      rcases hrc : e.rc with _ | cid'
      · simp only [hrc]
        exact ih cs cid hshift
      · simp only [hrc]
        rw [ih _ cid hshift, decStrong_eq_upd, updCellF_get_ne _ _ (by
          intro hh
          subst hh
          exact hne hrc)]
    | BrokenHeart j =>
      rw [dropSpots]
      refine ih cs cid ?_
      intro k e' hk
      exact h (k + 1) e' (by rwa [List.getElem?_cons_succ])

theorem dropSpots_cells_single {A : Type} :
    ∀ (l : List (Spot A)) (i : Nat) (cs : List Cell) (cid : Nat)
    (e : Entry A) (c : Cell),
    l[i]? = some (Spot.Present e) → e.rc = some cid →
    cs[cid]? = some c →
    (∀ (k : Nat) (e' : Entry A), k ≠ i → l[k]? = some (Spot.Present e') →
      e'.rc ≠ some cid) →
    (dropSpots cs l).1[cid]? = some { c with strong := c.strong - 1 } := by
  intro l
  induction l with
  | nil =>
    intro i cs cid e c hi
    simp at hi
  | cons s rest ih =>
    intro i cs cid e c hi hrc hc h
    cases i with
    | zero =>
      rw [List.getElem?_cons_zero] at hi
      injection hi with hi
      subst hi
      rw [dropSpots]
      simp only [hrc]
      rw [dropSpots_cells_pr rest (decStrong cs cid) cid (by
        intro k e' hk
        exact h (k + 1) e' (by omega) (by rwa [List.getElem?_cons_succ]))]
      rw [decStrong_eq_upd, updCellF_get_self _ hc]
    | succ i =>
      rw [List.getElem?_cons_succ] at hi
      have hshift : ∀ (k : Nat) (e' : Entry A), k ≠ i →
          rest[k]? = some (Spot.Present e') → e'.rc ≠ some cid := by
        intro k e' hk hke
        exact h (k + 1) e' (by omega) (by rwa [List.getElem?_cons_succ])
      cases s with
      | Present e'' =>
        rw [dropSpots]
        have hne : e''.rc ≠ some cid := h 0 e'' (by omega) (by simp)
        rcases hrc'' : e''.rc with _ | cid''
        · simp only [hrc'']
          exact ih i cs cid e c hi hrc hc hshift
        · simp only [hrc'']
          refine ih i (decStrong cs cid'') cid e c hi hrc ?_ hshift
          rw [decStrong_eq_upd, updCellF_get_ne _ _ (by
            intro hh
            subst hh
            exact hne hrc'')]
          exact hc
      | BrokenHeart j =>
        rw [dropSpots]
        exact ih i cs cid e c hi hrc hc hshift

theorem presentPayloads_mem {A : Type} {l : List (Spot A)} {i : Nat}
    {e : Entry A} (h : l[i]? = some (Spot.Present e)) :
    e.t.payload ∈ presentPayloads l :=
  List.mem_filterMap.mpr ⟨Spot.Present e, List.getElem?_mem h, rfl⟩

theorem presentPayloads_tail_sublist {A : Type} (s : Spot A)
    (l : List (Spot A)) :
    (presentPayloads l).Sublist (presentPayloads (s :: l)) := by
  cases s with
  | Present e =>
    simp only [presentPayloads, List.filterMap_cons]
    exact List.Sublist.cons _ (List.Sublist.refl _)
  | BrokenHeart j =>
    simp only [presentPayloads, List.filterMap_cons]
    exact List.Sublist.refl _

theorem presentPayloads_sublist {A : Type} :
    ∀ (l0 l : List (Spot A)), l.length = l0.length →
    (∀ i : Nat, l[i]? = l0[i]? ∨ ∃ j : Ix, l[i]? = some (Spot.BrokenHeart j)) →
    (presentPayloads l).Sublist (presentPayloads l0) := by
  intro l0
  induction l0 with
  | nil =>
    intro l hlen _
    have : l = [] := List.length_eq_zero.mp hlen
    subst this
    exact List.Sublist.refl _
  | cons s0 t0 ih =>
    intro l hlen hpt
    cases l with
    | nil => simp at hlen
    | cons s t =>
      have htail : (presentPayloads t).Sublist (presentPayloads t0) := by
        refine ih t (by simpa using hlen) ?_
        intro i
        rcases hpt (i + 1) with h | ⟨j, hj⟩
        · left
          rw [List.getElem?_cons_succ, List.getElem?_cons_succ] at h
          exact h
        · right
          rw [List.getElem?_cons_succ] at hj
          exact ⟨j, hj⟩
      rcases hpt 0 with h0 | ⟨j, hj⟩
      · rw [List.getElem?_cons_zero, List.getElem?_cons_zero] at h0
        injection h0 with h0
        subst h0
        cases s with
        | Present e =>
          simp only [presentPayloads, List.filterMap_cons]
          exact List.Sublist.cons₂ _ htail
        | BrokenHeart j =>
          simp only [presentPayloads, List.filterMap_cons]
          exact htail
      · rw [List.getElem?_cons_zero] at hj
        injection hj with hj
        subst hj
        refine List.Sublist.trans ?_ (presentPayloads_tail_sublist s0 t0)
        simpa only [presentPayloads, List.filterMap_cons] using htail

theorem presentPayloads_nodup {A : Type} :
    ∀ l : List (Spot A),
    (∀ (i i' : Nat) (e e' : Entry A), l[i]? = some (Spot.Present e) →
      l[i']? = some (Spot.Present e') → e.t.payload = e'.t.payload →
      i = i') →
    (presentPayloads l).Nodup := by
  intro l
  induction l with
  | nil => intro _; simp [presentPayloads]
  | cons s t ih =>
    intro hinj
    have hshift : ∀ (i i' : Nat) (e e' : Entry A),
        t[i]? = some (Spot.Present e) → t[i']? = some (Spot.Present e') →
        e.t.payload = e'.t.payload → i = i' := by
      intro i i' e e' h1 h2 hp
      have := hinj (i + 1) (i' + 1) e e' (by rwa [List.getElem?_cons_succ])
        (by rwa [List.getElem?_cons_succ]) hp
      omega
    cases s with
    | Present e =>
      simp only [presentPayloads, List.filterMap_cons]
      rw [List.nodup_cons]
      refine ⟨?_, ih hshift⟩
      intro hmem
      obtain ⟨s', hs', hf⟩ := List.mem_filterMap.mp hmem
      cases s' with
      | Present e' =>
        simp only [Option.some.injEq] at hf
        obtain ⟨k, hk⟩ := List.mem_iff_getElem?.mp hs'
        have := hinj 0 (k + 1) e e' (by simp)
          (by rwa [List.getElem?_cons_succ]) hf.symm
        omega
      | BrokenHeart j => simp at hf
    | BrokenHeart j =>
      simp only [presentPayloads, List.filterMap_cons]
      exact ih hshift

/-- Unpacking `Region::gc` on success. -/
theorem gc_eq {A : Type} {r r' : Region A} {dropped : List A}
    (h : r.gc = .ok (r', dropped)) :
    ∃ (stF : GcState A) (kept : List Nat),
      primGcTo ⟨r.data, [], r.cells⟩ r.roots = .ok (stF, kept) ∧
      r' = { data := stF.dst,
             cap := vecReserve r.data.length 0 r.data.length,
             roots := (filterValidRoots stF.cells kept).1,
             cells :=
               (dropSpots (filterValidRoots stF.cells kept).2 stF.src).1 } ∧
      dropped = (dropSpots (filterValidRoots stF.cells kept).2 stF.src).2 := by
  rw [Region.gc] at h
  rcases hp : primGcTo (⟨r.data, [], r.cells⟩ : GcState A) r.roots
    with err | q
  · rw [hp] at h
    simp at h
  rcases q with ⟨stF, kept⟩
  rw [hp] at h
  simp only [Except.ok.injEq, Prod.mk.injEq] at h
  exact ⟨stF, kept, rfl, h.1.symm, h.2.symm⟩

/-- Unpacking the collecting branch of `Region::ensure`. -/
theorem ensure_eq {A : Type} {r r1 : Region A} {additional : Nat}
    (hcoll : ensureCollects r additional = true)
    (h : r.ensure additional = .ok r1) :
    ∃ (stF : GcState A) (kept : List Nat),
      primGcTo ⟨r.data, [], r.cells⟩ r.roots = .ok (stF, kept) ∧
      r1 = { data := stF.dst,
             cap := vecReserve (r.data.length + max r.data.length additional)
               0 r.data.length,
             roots := (filterValidRoots stF.cells kept).1,
             cells :=
               (dropSpots (filterValidRoots stF.cells kept).2 stF.src).1 } := by
  rw [Region.ensure, if_pos hcoll] at h
  rcases hp : primGcTo (⟨r.data, [], r.cells⟩ : GcState A) r.roots
    with err | q
  · rw [hp] at h
    simp at h
  rcases q with ⟨stF, kept⟩
  rw [hp] at h
  simp only [Except.ok.injEq] at h
  exact ⟨stF, kept, rfl, h.symm⟩

/-- A spot still `Present` in the exhausted source is an untouched original. -/
theorem src_present_original {A : Type} {r0 : Region A} {st : GcState A}
    {objIndex : Nat} (hinv : Inv r0 st objIndex) {k : Nat} {e' : Entry A}
    (hk : st.src[k]? = some (Spot.Present e')) :
    r0.data[k]? = some (Spot.Present e') ∧
    ¬∃ j : Nat, copiedTo st k j := by
  have hnc : ¬∃ j : Nat, copiedTo st k j := by
    rintro ⟨j, hj⟩
    rw [copiedTo, hk] at hj
    simp at hj
  rcases hinv.refines k with hsame | hcop
  · rw [← hsame]
    exact ⟨hk, hnc⟩
  · exact absurd hcop hnc

/-- The consolidated facts `Region::gc` guarantees on a well-formed region. -/
theorem gc_ok_facts {A : Type} {r r' : Region A} {dropped : List A}
    (hwfb : wfB r = true) (h : r.gc = .ok (r', dropped)) :
    ∃ (stF : GcState A) (kept : List Nat),
      primGcTo ⟨r.data, [], r.cells⟩ r.roots = .ok (stF, kept) ∧
      Inv r stF stF.dst.length ∧
      (∀ (cid : Nat) (c0 : Cell), cid ∈ r.roots → r.cells[cid]? = some c0 →
        (0 < c0.strong → c0.val.ix < r.data.length →
          cid ∈ kept ∧ ∃ j : Nat, copiedTo stF c0.val.ix j ∧
            stF.cells[cid]? = some { c0 with val := ⟨j⟩ }) ∧
        (c0.strong = 0 ∨ r.data.length ≤ c0.val.ix →
          cid ∉ kept ∧
            stF.cells[cid]? = some { c0 with weakc := c0.weakc - 1 })) ∧
      (∀ cid : Nat, cid ∈ kept → cid ∈ r.roots) ∧
      (∀ i : Nat, Reaches r i → ∃ j : Nat, copiedTo stF i j) ∧
      r'.data = stF.dst ∧
      r'.roots = kept ∧
      r'.cells = (dropSpots stF.cells stF.src).1 ∧
      dropped = presentPayloads stF.src := by
  obtain ⟨hnr, hro⟩ := wf_split hwfb
  have hwf := wfFacts_of hnr
  obtain ⟨stF, kept, hp, hr', hdr⟩ := gc_eq h
  obtain ⟨hinv, hrspec, hkm, hcompl⟩ := primGcTo_spec hwf hp
  have hrOk := rootsOk_of hro
  have hkl : ∀ cid : Nat, cid ∈ kept →
      ∃ c, stF.cells[cid]? = some c ∧ 0 < c.strong := by
    intro cid hm
    have hrt := hkm cid hm
    obtain ⟨c0, hc0⟩ := hwf.rcell cid hrt
    by_cases hs : 0 < c0.strong
    · have hir := hrOk cid c0 hrt hc0 hs
      obtain ⟨_, j, _, hcell⟩ := (hrspec cid c0 hrt hc0).1 hs hir
      exact ⟨_, hcell, hs⟩
    · obtain ⟨hnk, _⟩ := (hrspec cid c0 hrt hc0).2 (Or.inl (by omega))
      exact absurd hm hnk
  have hfv : filterValidRoots stF.cells kept = (kept, stF.cells) :=
    filterValid_all_live kept stF.cells hkl
  subst hr'
  refine ⟨stF, kept, hp, hinv, hrspec, hkm, hcompl hrOk, rfl, ?_, ?_, ?_⟩
  · simp [hfv]
  · simp [hfv]
  · rw [hdr, hfv, dropSpots_payloads]

deriving instance DecidableEq for Except

/-- C8.  Error taxonomy of the `Ix` accessors in the non-diagnostic build
with the identity injection: `try_get` and `try_get_mut` return
`Err(Indeterminable)` exactly when the index is out of range of the backing
store or the addressed slot is a `BrokenHeart`; otherwise they return `Ok`
with the stored user value; no other error is ever produced. -/
theorem c8_tryget_taxonomy {A : Type} (r : Region A) (i : Ix) :
    (∀ e : Entry A, r.data[i.ix]? = some (Spot.Present e) →
      i.tryGet r = .ok e.t ∧ i.tryGetMut r = .ok e.t) ∧
    (i.tryGet r = .error .Indeterminable ↔
      (r.data.length ≤ i.ix ∨
        ∃ j : Ix, r.data[i.ix]? = some (Spot.BrokenHeart j))) ∧
    i.tryGetMut r = i.tryGet r ∧
    (∀ err : Error, i.tryGet r = .error err → err = .Indeterminable) := by
  rcases hs : r.data[i.ix]? with _ | s
  · have hlen : r.data.length ≤ i.ix := List.getElem?_eq_none_iff.mp hs
    refine ⟨?_, ?_, ?_, ?_⟩
    · intro e he
      simp at he
    · simp only [Ix.tryGet, hs]
      simp [hlen]
    · simp only [Ix.tryGet, Ix.tryGetMut, hs]
    · intro err herr
      simp only [Ix.tryGet, hs, Except.error.injEq] at herr
      exact herr.symm
  · cases s with
    | Present e =>
      refine ⟨?_, ?_, ?_, ?_⟩
      · intro e' he'
        injection he' with he'
        injection he' with he'
        subst he'
        exact ⟨by simp [Ix.tryGet, hs], by simp [Ix.tryGetMut, hs]⟩
      · simp only [Ix.tryGet, hs]
        constructor
        · intro hh
          simp at hh
        · rintro (hh | ⟨j, hj⟩)
          · exact absurd hs (by simp [List.getElem?_eq_none_iff.mpr hh])
          · simp at hj
      · simp only [Ix.tryGet, Ix.tryGetMut, hs]
      · intro err herr
        simp only [Ix.tryGet, hs] at herr
        simp at herr
    | BrokenHeart j =>
      refine ⟨?_, ?_, ?_, ?_⟩
      · intro e' he'
        simp at he'
      · simp only [Ix.tryGet, hs]
        simp
      · simp only [Ix.tryGet, Ix.tryGetMut, hs]
      · intro err herr
        simp only [Ix.tryGet, hs, Except.error.injEq] at herr
        exact herr.symm

/-- C8 witness at a concrete region: one live slot, one broken heart, and an
out-of-range index. -/
def rExC8 : Region Nat :=
  ⟨[Spot.Present ⟨none, ⟨5, []⟩⟩, Spot.BrokenHeart ⟨0⟩], 2, [], []⟩

theorem c8_tryget_taxonomy_witness :
    ((∀ e : Entry Nat, rExC8.data[(0 : Nat)]? = some (Spot.Present e) →
      Ix.tryGet ⟨0⟩ rExC8 = .ok e.t ∧ Ix.tryGetMut ⟨0⟩ rExC8 = .ok e.t) ∧
    (Ix.tryGet ⟨0⟩ rExC8 = .error .Indeterminable ↔
      (rExC8.data.length ≤ 0 ∨
        ∃ j : Ix, rExC8.data[(0 : Nat)]? = some (Spot.BrokenHeart j))) ∧
    Ix.tryGetMut ⟨0⟩ rExC8 = Ix.tryGet ⟨0⟩ rExC8 ∧
    (∀ err : Error, Ix.tryGet ⟨0⟩ rExC8 = .error err →
      err = .Indeterminable)) ∧
    Ix.tryGet ⟨1⟩ rExC8 = .error .Indeterminable ∧
    Ix.tryGet ⟨2⟩ rExC8 = .error .Indeterminable :=
  ⟨c8_tryget_taxonomy rExC8 ⟨0⟩, by decide, by decide⟩

/-- C10.  `alloci` first ensures capacity for one element (possibly
collecting), invokes the factory on the post-collection region, and appends a
`Present` spot with no anchor; the handle's index identifier is the length
before the push, and the length afterwards is one more than after `ensure`. -/
theorem c10_alloc_appends {A : Type} (r : Region A) (mk : Region A → Obj A)
    {r' : Region A} {me : MutEntry}
    (h : r.alloci mk = .ok (r', me)) :
    ∃ r1 : Region A, r.ensure 1 = .ok r1 ∧
      r'.data = r1.data ++ [Spot.Present ⟨none, mk r1⟩] ∧
      me.ix = ⟨r1.len⟩ ∧
      me.ix.identifier = r1.len ∧
      r'.len = r1.len + 1 ∧
      r'.roots = r1.roots ∧
      r'.cells = r1.cells ∧
      me.rootCache = none := by
  rw [Region.alloci] at h
  rcases he : r.ensure 1 with err | r1
  · rw [he] at h
    simp at h
  rw [he] at h
  simp only [Except.ok.injEq, Prod.mk.injEq] at h
  obtain ⟨h1, h2⟩ := h
  subst h1
  subst h2
  refine ⟨r1, rfl, rfl, rfl, rfl, ?_, rfl, rfl, rfl⟩
  simp [Region.len]

theorem c10_alloc_appends_witness :
    ∃ (r' : Region Nat) (me : MutEntry),
      Region.alloci Region.new (fun _ => ⟨1, []⟩) = .ok (r', me) ∧
      ∃ r1 : Region Nat, Region.ensure Region.new 1 = .ok r1 ∧
        r'.data = r1.data ++ [Spot.Present ⟨none, (fun (_ : Region Nat) =>
          (⟨1, []⟩ : Obj Nat)) r1⟩] ∧
        me.ix = ⟨r1.len⟩ ∧
        me.ix.identifier = r1.len ∧
        r'.len = r1.len + 1 ∧
        r'.roots = r1.roots ∧
        r'.cells = r1.cells ∧
        me.rootCache = none :=
  ⟨⟨[Spot.Present ⟨none, ⟨1, []⟩⟩], 1, [], []⟩, ⟨⟨0⟩, none⟩, by decide,
    c10_alloc_appends Region.new (fun _ => ⟨1, []⟩) (by decide)⟩

/-- The predicate "these allocations run back to back and none of them
triggers a capacity collection" (the guard of `ensure(1)` stays false). -/
def allocsNoCollect {A : Type} : Region A → List (Region A → Obj A) → Prop
  | _, [] => True
  | r, mk :: rest =>
    ensureCollects r 1 = false ∧
    ∃ (r' : Region A) (me : MutEntry), r.alloci mk = .ok (r', me) ∧
      allocsNoCollect r' rest

/-- An allocation below capacity is a pure append. -/
theorem alloci_no_collect {A : Type} {r : Region A}
    (h : ensureCollects r 1 = false) (mk : Region A → Obj A) :
    r.alloci mk =
      .ok ({ r with data := r.data ++ [Spot.Present ⟨none, mk r⟩] },
        ⟨⟨r.data.length⟩, none⟩) := by
  have hcap : r.data.length < r.cap := by
    simp only [ensureCollects, decide_eq_false_iff_not, Nat.not_lt] at h
    omega
  rw [Region.alloci, Region.ensure, if_neg (by simp [h])]
  simp only [Except.ok.injEq, Prod.mk.injEq]
  refine ⟨?_, trivial⟩
  rw [vecPushCap, if_pos hcap]

theorem allocs_of_slack {A : Type} :
    ∀ (fs : List (Region A → Obj A)) (r : Region A),
    r.data.length + fs.length ≤ r.cap →
    allocsNoCollect r fs := by
  intro fs
  induction fs with
  | nil => intro r _; trivial
  | cons mk rest ih =>
    intro r hslack
    simp only [List.length_cons] at hslack
    have hnc : ensureCollects r 1 = false := by
      simp only [ensureCollects, decide_eq_false_iff_not, Nat.not_lt]
      omega
    refine ⟨hnc, _, _, alloci_no_collect hnc mk, ?_⟩
    refine ih _ ?_
    simp only [List.length_append, List.length_singleton]
    omega

/-- C6.  The capacity guarantee of `ensure`: after `ensure(k)` the region has
at least `k` spare capacity, so the next `k` allocations do not trigger a
collection; and when `ensure` does collect (capacity < len + additional) the
destination store is created with capacity `len + max(len, additional)` for
the pre-collection length `len`. -/
theorem c6_ensure_capacity {A : Type} {r : Region A} (hwfb : wfB r = true)
    (k : Nat) {r1 : Region A} (hok : r.ensure k = .ok r1) :
    r1.len + k ≤ r1.capacity ∧
    (ensureCollects r k = true → r1.capacity = r.len + max r.len k) ∧
    (∀ fs : List (Region A → Obj A), fs.length ≤ k →
      allocsNoCollect r1 fs) := by
  by_cases hc : ensureCollects r k = true
  · obtain ⟨stF, kept, hp, hr1⟩ := ensure_eq hc hok
    obtain ⟨hnr, hro⟩ := wf_split hwfb
    have hwf := wfFacts_of hnr
    obtain ⟨hinv, _, _, _⟩ := primGcTo_spec hwf hp
    have hlen : stF.dst.length ≤ r.data.length := by
      have h1 := hinv.pres
      have h2 := presentCount_le_length r.data
      omega
    have hcap : r1.capacity = r.data.length + max r.data.length k := by
      rw [hr1]
      simp only [Region.capacity]
      rw [vecReserve, if_pos (by omega)]
    have hl1 : r1.len = stF.dst.length := by
      rw [hr1]
      rfl
    refine ⟨?_, fun _ => hcap, ?_⟩
    · rw [hcap, hl1]
      have : k ≤ max r.data.length k := le_max_right _ _
      omega
    · intro fs hfs
      refine allocs_of_slack fs r1 ?_
      have hrc : r1.cap = r.data.length + max r.data.length k := hcap
      have hrd : r1.data.length = stF.dst.length := hl1
      have : k ≤ max r.data.length k := le_max_right _ _
      omega
  · have hre : r.ensure k = .ok r := by
      rw [Region.ensure, if_neg hc]
    rw [hre] at hok
    injection hok with hok
    subst hok
    have hcap : r.data.length + k ≤ r.cap := by
      simp only [ensureCollects, decide_eq_true_eq, Nat.not_lt] at hc
      omega
    refine ⟨hcap, fun hh => absurd hh hc, ?_⟩
    intro fs hfs
    refine allocs_of_slack fs _ ?_
    omega

/-- No surviving source entry other than `i` can hold the anchor cell of the
entry at `i`. -/
theorem src_unique_anchor {A : Type} {r : Region A} (hwf : WfFacts r)
    {stF : GcState A} (hinv : Inv r stF stF.dst.length)
    {i : Nat} {e0 : Entry A} {cid : Nat}
    (hi : r.data[i]? = some (Spot.Present e0)) (hcid : e0.rc = some cid)
    (hiun : ¬∃ j : Nat, copiedTo stF i j) :
    ∀ (k : Nat) (e' : Entry A), stF.src[k]? = some (Spot.Present e') →
    e'.rc ≠ some cid ∨ k = i := by
  intro k e' hk
  obtain ⟨hk0, _⟩ := src_present_original hinv hk
  by_cases hke : e'.rc = some cid
  · exact Or.inr (hwf.rcI k i e' e0 cid hk0 hi hke hcid)
  · exact Or.inl hke

/-- After a collection, the anchor of an unreachable entry has lost its last
strong share (the entry dropped with the old store), so every `Weak` on it
has expired. -/
theorem gc_dead_anchor {A : Type} {r r' : Region A} {dropped : List A}
    {i : Nat} {e0 : Entry A} {cid : Nat}
    (hwfb : wfB r = true) (hok : r.gc = .ok (r', dropped))
    (hnr : ¬Reaches r i) (hi : r.data[i]? = some (Spot.Present e0))
    (hcid : e0.rc = some cid) :
    ∃ c : Cell, r.cells[cid]? = some c ∧ c.strong = 1 ∧
      r'.cells[cid]? = some { c with strong := 0 } ∧
      Weak.ixOpt ⟨cid⟩ r' = none ∧
      Weak.tryGet ⟨cid⟩ r' = .error .EntryExpired := by
  obtain ⟨stF, kept, hp, hinv, hrspec, hkm, hcompl, hdata, hroots, hcells,
    hdrop⟩ := gc_ok_facts hwfb hok
  obtain ⟨hnrB, hroB⟩ := wf_split hwfb
  have hwf := wfFacts_of hnrB
  have hiun : ¬∃ j : Nat, copiedTo stF i j := by
    rintro ⟨j, hj⟩
    exact hnr (hinv.copiedReach i j hj)
  have hsrci : stF.src[i]? = some (Spot.Present e0) := by
    rcases hinv.refines i with hsame | hcop
    · rw [hsame]
      exact hi
    · exact absurd hcop hiun
  obtain ⟨c, hc, _, hcs⟩ := hwf.rcV i e0 cid hi hcid
  have hstc : stF.cells[cid]? = some c := by
    rw [hinv.uncopiedCells i e0 cid hi hcid hiun]
    exact hc
  have hdone : (dropSpots stF.cells stF.src).1[cid]? =
      some { c with strong := c.strong - 1 } := by
    refine dropSpots_cells_single stF.src i stF.cells cid e0 c hsrci hcid
      hstc ?_
    intro k e' hki hk hke
    rcases src_unique_anchor hwf hinv hi hcid hiun k e' hk with hh | hh
    · exact hh hke
    · exact hki hh
  have hzero : ({ c with strong := c.strong - 1 } : Cell) =
      { c with strong := 0 } := by
    rw [hcs]
  have hfin : r'.cells[cid]? = some { c with strong := 0 } := by
    rw [hcells, hdone, hzero]
  refine ⟨c, hc, hcs, hfin, ?_, ?_⟩
  · rw [Weak.ixOpt]
    simp [hfin]
  · rw [Weak.tryGet, Weak.ixOpt]
    simp [hfin]

/-- C1.  Liveness preservation: every object reachable from the live root set
through `foreach_ix` is present (with its user payload) in the
post-collection region at its destination position; an observed entry anchor
survives pointing at that position, so a `Weak` on it still reads the same
user value, and a live registered `Root` whose cell addressed the object
still reads the same user value. -/
theorem c1_liveness {A : Type} {r r' : Region A} {dropped : List A} {i : Nat}
    (hwfb : wfB r = true) (hok : r.gc = .ok (r', dropped))
    (hreach : Reaches r i) :
    ∃ (j : Nat) (e0 ePost : Entry A),
      r.data[i]? = some (Spot.Present e0) ∧
      r'.data[j]? = some (Spot.Present ePost) ∧
      ePost.t.payload = e0.t.payload ∧
      (∀ (cid : Nat) (c : Cell), e0.rc = some cid →
        r.cells[cid]? = some c → 0 < c.weakc →
        r'.cells[cid]? = some { c with val := ⟨j⟩ } ∧
        Weak.ixOpt ⟨cid⟩ r' = some ⟨j⟩ ∧
        Weak.tryGet ⟨cid⟩ r' = .ok ePost.t) ∧
      (∀ (cid : Nat) (c : Cell), cid ∈ r.roots → r.cells[cid]? = some c →
        0 < c.strong → c.val = ⟨i⟩ →
        Root.ix ⟨cid⟩ r' = ⟨j⟩ ∧
        Root.tryGet ⟨cid⟩ r' = .ok ePost.t) := by
  obtain ⟨stF, kept, hp, hinv, hrspec, hkm, hcompl, hdata, hroots, hcells,
    hdrop⟩ := gc_ok_facts hwfb hok
  obtain ⟨hnrB, hroB⟩ := wf_split hwfb
  have hwf := wfFacts_of hnrB
  obtain ⟨j, hj⟩ := hcompl i hreach
  have hjlt := hinv.copiedLt i j hj
  obtain ⟨i1, e01, eP, hc1, hr1, hdst1, hpl1, hrc1, hun1, hsc1⟩ :=
    hinv.corr j hjlt
  have hi1 : i1 = i := hinv.copiedInj i1 i j hc1 hj
  subst hi1
  have hrdata : r'.data[j]? = some (Spot.Present eP) := by
    rw [hdata]
    exact hdst1
  refine ⟨j, e01, eP, hr1, hrdata, hpl1, ?_, ?_⟩
  · intro cid c hcid hc hwk
    have hcell : stF.cells[cid]? = some { c with val := ⟨j⟩ } :=
      ((hrc1.2 cid c hcid hc).2 (by omega)).2
    have hdpr : (dropSpots stF.cells stF.src).1[cid]? =
        stF.cells[cid]? := by
      refine dropSpots_cells_pr _ _ _ ?_
      intro k e' hk hke
      obtain ⟨hk0, hkc⟩ := src_present_original hinv hk
      have hki : k = i1 := hwf.rcI k i1 e' e01 cid hk0 hr1 hke hcid
      subst hki
      exact hkc ⟨j, hj⟩
    have hstrong : c.strong = 1 := by
      obtain ⟨cc, hcc, _, hccs⟩ := hwf.rcV i1 e01 cid hr1 hcid
      rw [hc] at hcc
      injection hcc with hcc
      rw [hcc]
      exact hccs
    have hfin : r'.cells[cid]? = some { c with val := ⟨j⟩ } := by
      rw [hcells, hdpr]
      exact hcell
    refine ⟨hfin, ?_, ?_⟩
    · rw [Weak.ixOpt]
      simp only [hfin]
      rw [if_pos (by simp [hstrong])]
    · rw [Weak.tryGet, Weak.ixOpt]
      simp only [hfin]
      rw [if_pos (by simp [hstrong])]
      simp [Ix.tryGet, hrdata]
  · intro cid c hcidm hc hs hval
    have hilt : i1 < r.data.length := (List.getElem?_eq_some.mp hr1).1
    have hvix : c.val.ix = i1 := by rw [hval]
    have hirange : c.val.ix < r.data.length := by
      rw [hvix]
      exact hilt
    obtain ⟨hkept, j2, hj2, hcell⟩ := (hrspec cid c hcidm hc).1 hs hirange
    rw [hvix] at hj2
    have hj2j : j2 = j := by
      rw [copiedTo] at hj2
      rw [copiedTo] at hj
      rw [hj] at hj2
      injection hj2 with hh
      injection hh with hh
      injection hh with hh
      exact hh.symm
    rw [hj2j] at hcell
    have hnotentry : ¬IsEntryCell r cid := by
      rintro ⟨i', e', hie, hrce⟩
      exact hwf.rnr cid hcidm i' e' hie hrce
    have hdpr : (dropSpots stF.cells stF.src).1[cid]? =
        stF.cells[cid]? := by
      refine dropSpots_cells_pr _ _ _ ?_
      intro k e' hk hke
      obtain ⟨hk0, _⟩ := src_present_original hinv hk
      exact hnotentry ⟨k, e', hk0, hke⟩
    have hfin : r'.cells[cid]? = some { c with val := ⟨j⟩ } := by
      rw [hcells, hdpr]
      exact hcell
    constructor
    · rw [Root.ix]
      simp only [hfin]
    · rw [Root.tryGet, Root.ix]
      simp only [hfin]
      simp [Ix.tryGet, hrdata]

/-- C2.  Reclamation: the user value of an object unreachable from the live
root set is dropped exactly once by `gc` (it appears once in the drop list
and is absent from the post-collection store), and if the entry had an
anchor, that anchor has lost its strong share and any `Weak` on it has
expired. -/
theorem c2_reclamation {A : Type} [DecidableEq A] {r r' : Region A}
    {dropped : List A} {i : Nat} {e0 : Entry A}
    (hwfb : wfB r = true) (hpinj : payloadInjB r = true)
    (hok : r.gc = .ok (r', dropped)) (hnr : ¬Reaches r i)
    (hi : r.data[i]? = some (Spot.Present e0)) :
    dropped.count e0.t.payload = 1 ∧
    (∀ (j : Nat) (eP : Entry A), r'.data[j]? = some (Spot.Present eP) →
      eP.t.payload ≠ e0.t.payload) ∧
    (∀ cid : Nat, e0.rc = some cid →
      ∃ c' : Cell, r'.cells[cid]? = some c' ∧ c'.strong = 0 ∧
        Weak.ixOpt ⟨cid⟩ r' = none ∧
        Weak.tryGet ⟨cid⟩ r' = .error .EntryExpired) := by
  obtain ⟨stF, kept, hp, hinv, hrspec, hkm, hcompl, hdata, hroots, hcells,
    hdrop⟩ := gc_ok_facts hwfb hok
  obtain ⟨hnrB, hroB⟩ := wf_split hwfb
  have hwf := wfFacts_of hnrB
  have hpi := payloadInj_of hpinj
  have hiun : ¬∃ j : Nat, copiedTo stF i j := by
    rintro ⟨j, hj⟩
    exact hnr (hinv.copiedReach i j hj)
  have hsrci : stF.src[i]? = some (Spot.Present e0) := by
    rcases hinv.refines i with hsame | hcop
    · rw [hsame]
      exact hi
    · exact absurd hcop hiun
  refine ⟨?_, ?_, ?_⟩
  · have hmem : e0.t.payload ∈ presentPayloads stF.src :=
      presentPayloads_mem hsrci
    have hsub : (presentPayloads stF.src).Sublist
        (presentPayloads r.data) := by
      refine presentPayloads_sublist r.data stF.src hinv.srcLen ?_
      intro k
      rcases hinv.refines k with hsame | ⟨j, hj⟩
      · exact Or.inl hsame
      · exact Or.inr ⟨⟨j⟩, hj⟩
    have hnd : (presentPayloads r.data).Nodup :=
      presentPayloads_nodup r.data hpi
    have hle : (presentPayloads stF.src).count e0.t.payload ≤
        (presentPayloads r.data).count e0.t.payload :=
      hsub.count_le _
    have hone : (presentPayloads r.data).count e0.t.payload ≤ 1 :=
      List.nodup_iff_count_le_one.mp hnd _
    have hpos : 0 < (presentPayloads stF.src).count e0.t.payload :=
      List.count_pos_iff_mem.mpr hmem
    rw [hdrop]
    omega
  · intro j eP hj hpe
    rw [hdata] at hj
    have hjlt : j < stF.dst.length := (List.getElem?_eq_some.mp hj).1
    obtain ⟨i1, e01, eP1, hc1, hr1, hdst1, hpl1, _, _, _⟩ :=
      hinv.corr j hjlt
    rw [hj] at hdst1
    have heq : eP1 = eP := by
      injection hdst1 with hh
      injection hh with hh
      exact hh.symm
    subst heq
    have hii : i1 = i := by
      refine hpi i1 i e01 e0 hr1 hi ?_
      rw [← hpl1, hpe]
    subst hii
    exact hiun ⟨j, hc1⟩
  · intro cid hcid
    obtain ⟨c, hc, hcs, hfin, hixo, htg⟩ :=
      gc_dead_anchor hwfb hok hnr hi hcid
    exact ⟨{ c with strong := 0 }, hfin, rfl, hixo, htg⟩

/-- C9.  Weak expiry: while an anchor cell still upgrades, `Weak::ix` returns
`Some` of the cell's current index; once the target has been reclaimed by a
collection the anchor no longer upgrades, so `ix` returns `None` and
`try_get` returns `Err(EntryExpired)`. -/
theorem c9_weak_expiry {A : Type} :
    (∀ (r : Region A) (w : Weak) (c : Cell),
      r.cells[w.cell]? = some c → 0 < c.strong →
      Weak.ixOpt w r = some c.val) ∧
    (∀ (r r' : Region A) (dropped : List A) (i cid : Nat) (e0 : Entry A),
      wfB r = true → r.gc = .ok (r', dropped) → ¬Reaches r i →
      r.data[i]? = some (Spot.Present e0) → e0.rc = some cid →
      Weak.ixOpt ⟨cid⟩ r' = none ∧
      Weak.tryGet ⟨cid⟩ r' = .error .EntryExpired) := by
  constructor
  · intro r w c hc hs
    rw [Weak.ixOpt]
    simp only [hc]
    rw [if_pos hs]
  · intro r r' dropped i cid e0 hwfb hok hnr hi hcid
    obtain ⟨c, hc, hcs, hfin, hixo, htg⟩ :=
      gc_dead_anchor hwfb hok hnr hi hcid
    exact ⟨hixo, htg⟩

/-- C4.  Handle stability: a `Root` live at collection time has, after `gc`,
an index equal to the destination index assigned to its object during the
collection, and reads the same user value (by payload equality). -/
theorem c4_root_stability {A : Type} {r r' : Region A} {dropped : List A}
    {cid : Nat} {c : Cell}
    (hwfb : wfB r = true) (hok : r.gc = .ok (r', dropped))
    (hcid : cid ∈ r.roots) (hc : r.cells[cid]? = some c)
    (hlive : 0 < c.strong) :
    ∃ (j : Nat) (e0 ePost : Entry A) (stF : GcState A) (kept : List Nat),
      primGcTo ⟨r.data, [], r.cells⟩ r.roots = .ok (stF, kept) ∧
      copiedTo stF c.val.ix j ∧
      r.data[c.val.ix]? = some (Spot.Present e0) ∧
      r'.data[j]? = some (Spot.Present ePost) ∧
      ePost.t.payload = e0.t.payload ∧
      Root.ix ⟨cid⟩ r' = ⟨j⟩ ∧
      Root.tryGet ⟨cid⟩ r' = .ok ePost.t := by
  obtain ⟨stF, kept, hp, hinv, hrspec, hkm, hcompl, hdata, hroots, hcells,
    hdrop⟩ := gc_ok_facts hwfb hok
  obtain ⟨hnrB, hroB⟩ := wf_split hwfb
  have hwf := wfFacts_of hnrB
  have hirange : c.val.ix < r.data.length :=
    rootsOk_of hroB cid c hcid hc hlive
  obtain ⟨hkept, j, hj, hcell⟩ := (hrspec cid c hcid hc).1 hlive hirange
  have hjlt := hinv.copiedLt _ j hj
  obtain ⟨i1, e01, eP, hc1, hr1, hdst1, hpl1, _, _, _⟩ := hinv.corr j hjlt
  have hi1 : i1 = c.val.ix := hinv.copiedInj i1 _ j hc1 hj
  subst hi1
  have hrdata : r'.data[j]? = some (Spot.Present eP) := by
    rw [hdata]
    exact hdst1
  have hnotentry : ¬IsEntryCell r cid := by
    rintro ⟨i', e', hie, hrce⟩
    exact hwf.rnr cid hcid i' e' hie hrce
  have hdpr : (dropSpots stF.cells stF.src).1[cid]? = stF.cells[cid]? := by
    refine dropSpots_cells_pr _ _ _ ?_
    intro k e' hk hke
    obtain ⟨hk0, _⟩ := src_present_original hinv hk
    exact hnotentry ⟨k, e', hk0, hke⟩
  have hfin : r'.cells[cid]? = some { c with val := ⟨j⟩ } := by
    rw [hcells, hdpr]
    exact hcell
  refine ⟨j, e01, eP, stF, kept, hp, hj, hr1, hrdata, hpl1, ?_, ?_⟩
  · rw [Root.ix]
    simp only [hfin]
  · rw [Root.tryGet, Root.ix]
    simp only [hfin]
    simp [Ix.tryGet, hrdata]

/-- C3.  The Cheney property: during a collection every reachable object is
copied exactly once (the source slot becomes the broken heart carrying the
destination index), no destination slot receives two sources, and inside
every relocated object each index yielded by `foreach_ix` has been rewritten
to the destination index of its original target, whose copy (payload-equal)
sits at that destination. -/
theorem c3_cheney {A : Type} {r : Region A} {stF : GcState A}
    {kept : List Nat} (hwfb : wfB r = true)
    (hrun : primGcTo ⟨r.data, [], r.cells⟩ r.roots = .ok (stF, kept)) :
    (∀ i : Nat, Reaches r i → ∃! j : Nat, copiedTo stF i j) ∧
    (∀ i i' j : Nat, copiedTo stF i j → copiedTo stF i' j → i = i') ∧
    (∀ (j : Nat) (eP : Entry A), stF.dst[j]? = some (Spot.Present eP) →
      ∃ (i : Nat) (e0 : Entry A),
        copiedTo stF i j ∧ r.data[i]? = some (Spot.Present e0) ∧
        eP.t.payload = e0.t.payload ∧
        eP.t.edges.length = e0.t.edges.length ∧
        (∀ (k : Nat) (p p' : Ix), e0.t.edges[k]? = some p →
          eP.t.edges[k]? = some p' →
          copiedTo stF p.ix p'.ix ∧
          ∃ (eT eT0 : Entry A),
            stF.dst[p'.ix]? = some (Spot.Present eT) ∧
            r.data[p.ix]? = some (Spot.Present eT0) ∧
            eT.t.payload = eT0.t.payload)) := by
  obtain ⟨hnrB, hroB⟩ := wf_split hwfb
  have hwf := wfFacts_of hnrB
  obtain ⟨hinv, hrspec, hkm, hcompl⟩ := primGcTo_spec hwf hrun
  have hrOk := rootsOk_of hroB
  refine ⟨?_, hinv.copiedInj, ?_⟩
  · intro i hreach
    obtain ⟨j, hj⟩ := hcompl hrOk i hreach
    refine ⟨j, hj, ?_⟩
    intro j' hj'
    rw [copiedTo] at hj hj'
    rw [hj] at hj'
    injection hj' with hh
    injection hh with hh
    injection hh with hh
    exact hh.symm
  · intro j eP hj
    have hjlt : j < stF.dst.length := (List.getElem?_eq_some.mp hj).1
    obtain ⟨i, e0, eP1, hc1, hr1, hdst1, hpl1, _, _, hsc1⟩ :=
      hinv.corr j hjlt
    rw [hj] at hdst1
    have heq : eP1 = eP := by
      injection hdst1 with hh
      injection hh with hh
      exact hh.symm
    subst heq
    have hfwd := hsc1 hjlt
    refine ⟨i, e0, hc1, hr1, hpl1, hfwd.1, ?_⟩
    intro k p p' hp hp'
    have hcp := hfwd.2 k p p' hp hp'
    have hplt := hinv.copiedLt _ _ hcp
    obtain ⟨i2, e02, eP2, hc2, hr2, hdst2, hpl2, _, _, _⟩ :=
      hinv.corr p'.ix hplt
    have hi2 : i2 = p.ix := hinv.copiedInj i2 _ _ hc2 hcp
    subst hi2
    exact ⟨hcp, eP2, e02, hdst2, hr2, hpl2⟩

/-- C5 amended.  The collector panics when `foreach_ix` yields an
out-of-range index from a reachable object; but a registered root whose cell
holds an out-of-range index is not panicked on: it is silently dropped from
the root set (its registry entry is gone after a completed collection). -/
theorem c5_amended {A : Type} :
    (∀ (r : Region A) (i : Nat) (e0 : Entry A) (p : Ix),
      wfB r = true → Reaches r i → r.data[i]? = some (Spot.Present e0) →
      p ∈ e0.t.edges → r.data.length ≤ p.ix →
      ∃ err : RPanic, r.gc = .error err) ∧
    (∀ (r r' : Region A) (dropped : List A) (cid : Nat) (c : Cell),
      wfNoRootsB r = true → cid ∈ r.roots → r.cells[cid]? = some c →
      0 < c.strong → r.data.length ≤ c.val.ix →
      r.gc = .ok (r', dropped) → cid ∉ r'.roots) := by
  constructor
  · intro r i e0 p hwfb hreach hi hp hout
    rcases hg : r.gc with err | q
    · exact ⟨err, rfl⟩
    exfalso
    rcases q with ⟨r', dropped⟩
    obtain ⟨stF, kept, hpr, hinv, hrspec, hkm, hcompl, _, _, _, _⟩ :=
      gc_ok_facts hwfb hg
    obtain ⟨j, hj⟩ := hcompl i hreach
    have hjlt := hinv.copiedLt i j hj
    obtain ⟨i1, e01, eP, hc1, hr1, hdst1, hpl1, _, _, hsc1⟩ :=
      hinv.corr j hjlt
    have hi1 : i1 = i := hinv.copiedInj i1 i j hc1 hj
    subst hi1
    have he01 : e01 = e0 := by
      rw [hi] at hr1
      injection hr1 with hh
      injection hh with hh
      exact hh.symm
    subst he01
    have hfwd := hsc1 hjlt
    obtain ⟨k, hk⟩ := List.mem_iff_getElem?.mp hp
    have hklt : k < eP.t.edges.length := by
      rw [hfwd.1]
      exact (List.getElem?_eq_some.mp hk).1
    have hk2 : eP.t.edges[k]? = some (eP.t.edges[k]) :=
      List.getElem?_eq_getElem hklt
    have hcp := hfwd.2 k p (eP.t.edges[k]) hk hk2
    rw [copiedTo] at hcp
    have hplt : p.ix < stF.src.length := (List.getElem?_eq_some.mp hcp).1
    rw [hinv.srcLen] at hplt
    omega
  · intro r r' dropped cid c hnrB hcid hc hs hout hok
    have hwf := wfFacts_of hnrB
    obtain ⟨stF, kept, hp, hr', _⟩ := gc_eq hok
    obtain ⟨hinv, hrspec, hkm, _⟩ := primGcTo_spec hwf hp
    obtain ⟨hnk, _⟩ := (hrspec cid c hcid hc).2 (Or.inr hout)
    have hsub : ∀ x : Nat, x ∈ r'.roots → x ∈ kept := by
      intro x hx
      rw [hr'] at hx
      exact filterValid_subset kept stF.cells _ _ rfl x hx
    intro hmem
    exact hnk (hsub cid hmem)

/-- C7 amended.  `MutEntry::root` and `MutEntry::weak` use two distinct
cells: `root` builds (and caches) a fresh root cell registered in the root
set, and a second `root` call returns a share of that same cell; `weak`
shares the entry's own anchor cell, held strongly by the entry — and that
cell is a different cell from the root cell.  Both cells hold the object's
index. -/
theorem c7_amended {A : Type} {r : Region A} {me : MutEntry} {e : Entry A}
    (hcache : me.rootCache = none)
    (hdata : r.data[me.ix.ix]? = some (Spot.Present e))
    (hrc : e.rc = none) :
    ∃ (ra rb rw : Region A) (me1 : MutEntry) (rt1 rt2 : Root) (w : Weak),
      MutEntry.root r me = (ra, me1, rt1) ∧
      MutEntry.root ra me1 = (rb, me1, rt2) ∧
      Region.mutWeak rb me1 = (rw, w) ∧
      rt1.cell = rt2.cell ∧
      rt1.cell ∈ rb.roots ∧
      w.cell ≠ rt1.cell ∧
      (∃ c : Cell, rw.cells[rt1.cell]? = some c ∧ c.val = me.ix ∧
        c.strong = 2) ∧
      (∃ c : Cell, rw.cells[w.cell]? = some c ∧ c.val = me.ix ∧
        c.strong = 1 ∧ c.weakc = 1) ∧
      rw.data[me.ix.ix]? = some (Spot.Present { e with rc := some w.cell }) := by
  have h1 : MutEntry.root r me =
      ({ r with
          cells := r.cells ++ [⟨me.ix, 1, 2⟩],
          roots := r.roots ++ [r.cells.length] },
       { me with rootCache := some r.cells.length },
       ⟨r.cells.length⟩) := by
    rw [MutEntry.root]
    simp only [hcache, newRootCell]
  have hcellN : (r.cells ++ [(⟨me.ix, 1, 2⟩ : Cell)])[r.cells.length]? =
      some ⟨me.ix, 1, 2⟩ := List.getElem?_concat_length _ _
  have h2 : MutEntry.root
      ({ r with
          cells := r.cells ++ [⟨me.ix, 1, 2⟩],
          roots := r.roots ++ [r.cells.length] } : Region A)
      { me with rootCache := some r.cells.length } =
      ({ r with
          cells := incStrong (r.cells ++ [⟨me.ix, 1, 2⟩]) r.cells.length,
          roots := r.roots ++ [r.cells.length] },
       { me with rootCache := some r.cells.length },
       ⟨r.cells.length⟩) := by
    rw [MutEntry.root]
    simp only [hcellN]
    rw [if_pos (by decide)]
  have hinc : incStrong (r.cells ++ [(⟨me.ix, 1, 2⟩ : Cell)])
      r.cells.length =
      (r.cells ++ [(⟨me.ix, 1, 2⟩ : Cell)]).set r.cells.length
        ⟨me.ix, 2, 2⟩ := by
    rw [incStrong]
    rw [hcellN]
  have hlen2 : (incStrong (r.cells ++ [(⟨me.ix, 1, 2⟩ : Cell)])
      r.cells.length).length = r.cells.length + 1 := by
    rw [incStrong_eq_upd, updCellF_length]
    simp
  have hcellN2 : (incStrong (r.cells ++ [(⟨me.ix, 1, 2⟩ : Cell)])
      r.cells.length)[r.cells.length]? = some ⟨me.ix, 2, 2⟩ := by
    rw [hinc]
    refine List.getElem?_set_eq ?_
    simp
  have h3 : Region.mutWeak
      ({ r with
          cells := incStrong (r.cells ++ [⟨me.ix, 1, 2⟩]) r.cells.length,
          roots := r.roots ++ [r.cells.length] } : Region A)
      { me with rootCache := some r.cells.length } =
      ({ r with
          cells := incStrong (r.cells ++ [⟨me.ix, 1, 2⟩]) r.cells.length
            ++ [⟨me.ix, 1, 1⟩],
          roots := r.roots ++ [r.cells.length],
          data := r.data.set me.ix.ix
            (Spot.Present { e with
              rc := some (incStrong (r.cells ++ [⟨me.ix, 1, 2⟩])
                r.cells.length).length }) },
       ⟨(incStrong (r.cells ++ [⟨me.ix, 1, 2⟩]) r.cells.length).length⟩) := by
    rw [Region.mutWeak]
    simp only [hdata, hrc]
  refine ⟨_, _, _, _, _, _, _, h1, h2, h3, rfl, ?_, ?_, ?_, ?_, ?_⟩
  · simp
  · show (incStrong (r.cells ++ [(⟨me.ix, 1, 2⟩ : Cell)])
      r.cells.length).length ≠ r.cells.length
    rw [hlen2]
    omega
  · refine ⟨⟨me.ix, 2, 2⟩, ?_, rfl, rfl⟩
    rw [List.getElem?_append]
    rw [if_pos (by rw [hlen2]; exact Nat.lt_succ_self _)]
    exact hcellN2
  · refine ⟨⟨me.ix, 1, 1⟩, ?_, rfl, rfl, rfl⟩
    simp only [hlen2]
    have := List.getElem?_concat_length
      (incStrong (r.cells ++ [(⟨me.ix, 1, 2⟩ : Cell)]) r.cells.length)
      (⟨me.ix, 1, 1⟩ : Cell)
    rw [hlen2] at this
    exact this
  · have hilt : me.ix.ix < r.data.length :=
      (List.getElem?_eq_some.mp hdata).1
    simp only [hlen2]
    exact List.getElem?_set_eq hilt

/-! ### Concrete regions used to witness the theorems above -/

/-- A three-object region: object 0 (anchored at cell 0, payload 10) points
at object 1 (payload 20); object 2 (anchored at cell 2, payload 30) is
unreachable.  Cell 1 is a live registered root cell addressing object 0. -/
def rEx : Region Nat :=
  ⟨[Spot.Present ⟨some 0, ⟨10, [⟨1⟩]⟩⟩, Spot.Present ⟨none, ⟨20, []⟩⟩,
    Spot.Present ⟨some 2, ⟨30, []⟩⟩], 3, [1],
   [⟨⟨0⟩, 1, 1⟩, ⟨⟨0⟩, 1, 1⟩, ⟨⟨2⟩, 1, 1⟩]⟩

/-- The region `rEx` becomes after `gc`: objects 0 and 1 survive, object 2
is dropped, its anchor (cell 2) loses its strong share. -/
def rExAfter : Region Nat :=
  ⟨[Spot.Present ⟨some 0, ⟨10, [⟨1⟩]⟩⟩, Spot.Present ⟨none, ⟨20, []⟩⟩],
   3, [1],
   [⟨⟨0⟩, 1, 1⟩, ⟨⟨0⟩, 1, 1⟩, ⟨⟨2⟩, 0, 1⟩]⟩

/-- The collector state reached by `prim_gc_to` on `rEx`: both reachable
objects relocated, broken hearts left behind, object 2 still in the
exhausted source. -/
def stExF : GcState Nat :=
  ⟨[Spot.BrokenHeart ⟨0⟩, Spot.BrokenHeart ⟨1⟩,
    Spot.Present ⟨some 2, ⟨30, []⟩⟩],
   [Spot.Present ⟨some 0, ⟨10, [⟨1⟩]⟩⟩, Spot.Present ⟨none, ⟨20, []⟩⟩],
   [⟨⟨0⟩, 1, 1⟩, ⟨⟨0⟩, 1, 1⟩, ⟨⟨2⟩, 1, 1⟩]⟩

/-- A region whose only registered root cell holds the out-of-range index 9
while the store has a single (hence unreachable) object. -/
def rBadRoot : Region Nat :=
  ⟨[Spot.Present ⟨none, ⟨1, []⟩⟩], 1, [0], [⟨⟨9⟩, 1, 1⟩]⟩

/-- `rBadRoot` after `gc`: the object was dropped and the bad root silently
discarded from the registry (its cell merely lost the registry weak share). -/
def rBadRootAfter : Region Nat := ⟨[], 1, [], [⟨⟨9⟩, 1, 0⟩]⟩

/-- A region whose single rooted object carries the out-of-range edge 5. -/
def rBadEdge : Region Nat :=
  ⟨[Spot.Present ⟨none, ⟨1, [⟨5⟩]⟩⟩], 1, [0], [⟨⟨0⟩, 1, 1⟩]⟩

/-- A one-object rootless region at full capacity, for the `ensure` claim. -/
def rC6 : Region Nat :=
  ⟨[Spot.Present ⟨none, ⟨1, []⟩⟩], 1, [], []⟩

/-- `rC6` after `ensure 2`: the unrooted object was collected and the store
regrown to capacity `len + max len 2 = 3`. -/
def rC6After : Region Nat := ⟨[], 3, [], []⟩

/-- A fresh one-object anchorless region, for the handle-sharing claim. -/
def rC7 : Region Nat := ⟨[Spot.Present ⟨none, ⟨7, []⟩⟩], 1, [], []⟩

/-- Every position reachable in `rEx` is 0 or 1. -/
theorem rEx_reach_cases {n : Nat} (h : Reaches rEx n) : n = 0 ∨ n = 1 := by
  induction h with
  | root hmem =>
    have he : liveRootIxs rEx = [0] := by decide
    rw [he] at hmem
    simp at hmem
    exact Or.inl hmem
  | step hr hmem ih =>
    rcases ih with h0 | h1
    · subst h0
      have he : succOf rEx.data 0 = [1] := by decide
      rw [he] at hmem
      simp at hmem
      exact Or.inr hmem
    · subst h1
      have he : succOf rEx.data 1 = [] := by decide
      rw [he] at hmem
      simp at hmem

/-- Position 1 of `rEx` is reachable: one step from the rooted position 0. -/
theorem rEx_reaches_one : Reaches rEx 1 :=
  Reaches.step (i := 0) (Reaches.root (by decide)) (by decide)

/-- Position 2 of `rEx` is unreachable. -/
theorem rEx_not_reaches_two : ¬Reaches rEx 2 := by
  intro h
  rcases rEx_reach_cases h with h | h
  · exact absurd h (by decide)
  · exact absurd h (by decide)

/-- Position 0 of `rBadEdge` is reachable (it is rooted). -/
theorem rBadEdge_reaches_zero : Reaches rBadEdge 0 :=
  Reaches.root (by decide)

/-- C1 witness: a concrete collection in which the reachable object 1 of
`rEx` survives with its payload, anchors and the live root updated. -/
theorem c1_liveness_witness :
    wfB rEx = true ∧ rEx.gc = .ok (rExAfter, [30]) ∧ Reaches rEx 1 ∧
    (∃ (j : Nat) (e0 ePost : Entry Nat),
      rEx.data[(1 : Nat)]? = some (Spot.Present e0) ∧
      rExAfter.data[j]? = some (Spot.Present ePost) ∧
      ePost.t.payload = e0.t.payload ∧
      (∀ (cid : Nat) (c : Cell), e0.rc = some cid →
        rEx.cells[cid]? = some c → 0 < c.weakc →
        rExAfter.cells[cid]? = some { c with val := ⟨j⟩ } ∧
        Weak.ixOpt ⟨cid⟩ rExAfter = some ⟨j⟩ ∧
        Weak.tryGet ⟨cid⟩ rExAfter = .ok ePost.t) ∧
      (∀ (cid : Nat) (c : Cell), cid ∈ rEx.roots →
        rEx.cells[cid]? = some c → 0 < c.strong → c.val = ⟨1⟩ →
        Root.ix ⟨cid⟩ rExAfter = ⟨j⟩ ∧
        Root.tryGet ⟨cid⟩ rExAfter = .ok ePost.t)) :=
  ⟨by decide, by decide, rEx_reaches_one,
   c1_liveness (by decide)
     (by decide : rEx.gc = .ok (rExAfter, ([30] : List Nat)))
     rEx_reaches_one⟩

/-- C2 witness: the unreachable object 2 of `rEx` is dropped exactly once,
absent afterwards, and its anchor has expired. -/
theorem c2_reclamation_witness :
    wfB rEx = true ∧ payloadInjB rEx = true ∧
    rEx.gc = .ok (rExAfter, [30]) ∧ ¬Reaches rEx 2 ∧
    rEx.data[(2 : Nat)]? = some (Spot.Present ⟨some 2, ⟨30, []⟩⟩) ∧
    (([30] : List Nat).count
        ((⟨some 2, ⟨30, []⟩⟩ : Entry Nat).t.payload) = 1 ∧
      (∀ (j : Nat) (eP : Entry Nat),
        rExAfter.data[j]? = some (Spot.Present eP) →
        eP.t.payload ≠ (⟨some 2, ⟨30, []⟩⟩ : Entry Nat).t.payload) ∧
      (∀ cid : Nat, (⟨some 2, ⟨30, []⟩⟩ : Entry Nat).rc = some cid →
        ∃ c' : Cell, rExAfter.cells[cid]? = some c' ∧ c'.strong = 0 ∧
          Weak.ixOpt ⟨cid⟩ rExAfter = none ∧
          Weak.tryGet ⟨cid⟩ rExAfter = .error .EntryExpired)) :=
  ⟨by decide, by decide, by decide, rEx_not_reaches_two, by decide,
   c2_reclamation (by decide) (by decide) (by decide) rEx_not_reaches_two
     (by decide)⟩

/-- C3 witness: the Cheney property at the concrete run of the collector on
`rEx`, ending in the state `stExF` with kept root list `[1]`. -/
theorem c3_cheney_witness :
    wfB rEx = true ∧
    primGcTo ⟨rEx.data, [], rEx.cells⟩ rEx.roots = .ok (stExF, [1]) ∧
    ((∀ i : Nat, Reaches rEx i → ∃! j : Nat, copiedTo stExF i j) ∧
      (∀ i i' j : Nat, copiedTo stExF i j → copiedTo stExF i' j → i = i') ∧
      (∀ (j : Nat) (eP : Entry Nat),
        stExF.dst[j]? = some (Spot.Present eP) →
        ∃ (i : Nat) (e0 : Entry Nat),
          copiedTo stExF i j ∧ rEx.data[i]? = some (Spot.Present e0) ∧
          eP.t.payload = e0.t.payload ∧
          eP.t.edges.length = e0.t.edges.length ∧
          (∀ (k : Nat) (p p' : Ix), e0.t.edges[k]? = some p →
            eP.t.edges[k]? = some p' →
            copiedTo stExF p.ix p'.ix ∧
            ∃ (eT eT0 : Entry Nat),
              stExF.dst[p'.ix]? = some (Spot.Present eT) ∧
              rEx.data[p.ix]? = some (Spot.Present eT0) ∧
              eT.t.payload = eT0.t.payload))) :=
  ⟨by decide, by decide,
   c3_cheney (by decide)
     (by decide : primGcTo ⟨rEx.data, [], rEx.cells⟩ rEx.roots =
       .ok (stExF, ([1] : List Nat)))⟩

/-- C4 witness: the concrete live root cell 1 of `rEx` is forwarded to the
destination index of its object and still reads the same payload. -/
theorem c4_root_stability_witness :
    wfB rEx = true ∧ rEx.gc = .ok (rExAfter, [30]) ∧
    (1 : Nat) ∈ rEx.roots ∧
    rEx.cells[(1 : Nat)]? = some ⟨⟨0⟩, 1, 1⟩ ∧
    0 < (⟨⟨0⟩, 1, 1⟩ : Cell).strong ∧
    (∃ (j : Nat) (e0 ePost : Entry Nat) (stF : GcState Nat)
        (kept : List Nat),
      primGcTo ⟨rEx.data, [], rEx.cells⟩ rEx.roots = .ok (stF, kept) ∧
      copiedTo stF (⟨⟨0⟩, 1, 1⟩ : Cell).val.ix j ∧
      rEx.data[(⟨⟨0⟩, 1, 1⟩ : Cell).val.ix]? = some (Spot.Present e0) ∧
      rExAfter.data[j]? = some (Spot.Present ePost) ∧
      ePost.t.payload = e0.t.payload ∧
      Root.ix ⟨1⟩ rExAfter = ⟨j⟩ ∧
      Root.tryGet ⟨1⟩ rExAfter = .ok ePost.t) :=
  ⟨by decide, by decide, by decide, by decide, by decide,
   c4_root_stability (by decide)
     (by decide : rEx.gc = .ok (rExAfter, ([30] : List Nat)))
     (by decide) (by decide) (by decide)⟩

/-- C5 counterexample to the original claim: `rBadRoot` is well formed and
its registered root cell 0 holds the out-of-range index 9, yet `gc` does not
panic — it returns successfully, with the offending root silently dropped
from the registry. -/
theorem c5_counterexample :
    wfNoRootsB rBadRoot = true ∧
    (0 : Nat) ∈ rBadRoot.roots ∧
    rBadRoot.cells[(0 : Nat)]? = some ⟨⟨9⟩, 1, 1⟩ ∧
    0 < (⟨⟨9⟩, 1, 1⟩ : Cell).strong ∧
    rBadRoot.data.length ≤ (⟨⟨9⟩, 1, 1⟩ : Cell).val.ix ∧
    rBadRoot.gc = .ok (rBadRootAfter, [1]) := by
  decide

/-- C5 witness: the collector does panic on the out-of-range edge of
`rBadEdge`, and does silently drop the out-of-range root of `rBadRoot`. -/
theorem c5_amended_witness :
    (wfB rBadEdge = true ∧ Reaches rBadEdge 0 ∧
      rBadEdge.data[(0 : Nat)]? = some (Spot.Present ⟨none, ⟨1, [⟨5⟩]⟩⟩) ∧
      (⟨5⟩ : Ix) ∈ (⟨none, ⟨1, [⟨5⟩]⟩⟩ : Entry Nat).t.edges ∧
      rBadEdge.data.length ≤ (⟨5⟩ : Ix).ix ∧
      (∃ err : RPanic, rBadEdge.gc = .error err)) ∧
    (wfNoRootsB rBadRoot = true ∧ (0 : Nat) ∈ rBadRoot.roots ∧
      rBadRoot.cells[(0 : Nat)]? = some ⟨⟨9⟩, 1, 1⟩ ∧
      0 < (⟨⟨9⟩, 1, 1⟩ : Cell).strong ∧
      rBadRoot.data.length ≤ (⟨⟨9⟩, 1, 1⟩ : Cell).val.ix ∧
      rBadRoot.gc = .ok (rBadRootAfter, [1]) ∧
      (0 : Nat) ∉ rBadRootAfter.roots) :=
  ⟨⟨by decide, rBadEdge_reaches_zero, by decide, by decide, by decide,
    (c5_amended (A := Nat)).1 rBadEdge 0 ⟨none, ⟨1, [⟨5⟩]⟩⟩ ⟨5⟩ (by decide)
      rBadEdge_reaches_zero (by decide) (by decide) (by decide)⟩,
   ⟨by decide, by decide, by decide, by decide, by decide, by decide,
    (c5_amended (A := Nat)).2 rBadRoot rBadRootAfter [1] 0 ⟨⟨9⟩, 1, 1⟩
      (by decide) (by decide) (by decide) (by decide) (by decide)
      (by decide)⟩⟩

/-- C6 witness: `ensure 2` on the full one-object rootless region collects
into a store of capacity `1 + max 1 2 = 3` and leaves room for two
collection-free allocations. -/
theorem c6_ensure_capacity_witness :
    wfB rC6 = true ∧ rC6.ensure 2 = .ok rC6After ∧
    (rC6After.len + 2 ≤ rC6After.capacity ∧
      (ensureCollects rC6 2 = true →
        rC6After.capacity = rC6.len + max rC6.len 2) ∧
      (∀ fs : List (Region Nat → Obj Nat), fs.length ≤ 2 →
        allocsNoCollect rC6After fs)) :=
  ⟨by decide, by decide, c6_ensure_capacity (by decide) 2 (by decide)⟩

/-- C7 counterexample to the original claim: on the fresh allocation handle
of `rC7`, `root` hands out root cell 0 while `weak` builds the distinct
anchor cell 1 — the Root and the Weak from the same handle do NOT observe
the same cell. -/
theorem c7_counterexample :
    (MutEntry.root rC7 ⟨⟨0⟩, none⟩).2.2.cell = 0 ∧
    (Region.mutWeak (MutEntry.root rC7 ⟨⟨0⟩, none⟩).1
      (MutEntry.root rC7 ⟨⟨0⟩, none⟩).2.1).2.cell = 1 ∧
    (Region.mutWeak (MutEntry.root rC7 ⟨⟨0⟩, none⟩).1
      (MutEntry.root rC7 ⟨⟨0⟩, none⟩).2.1).2.cell ≠
      (MutEntry.root rC7 ⟨⟨0⟩, none⟩).2.2.cell := by
  decide

/-- C7 witness: the amended handle-sharing facts at the concrete fresh
handle of `rC7`. -/
theorem c7_amended_witness :
    (⟨⟨0⟩, none⟩ : MutEntry).rootCache = none ∧
    rC7.data[(⟨⟨0⟩, none⟩ : MutEntry).ix.ix]? =
      some (Spot.Present ⟨none, ⟨7, []⟩⟩) ∧
    (⟨none, ⟨7, []⟩⟩ : Entry Nat).rc = none ∧
    (∃ (ra rb rw : Region Nat) (me1 : MutEntry) (rt1 rt2 : Root) (w : Weak),
      MutEntry.root rC7 ⟨⟨0⟩, none⟩ = (ra, me1, rt1) ∧
      MutEntry.root ra me1 = (rb, me1, rt2) ∧
      Region.mutWeak rb me1 = (rw, w) ∧
      rt1.cell = rt2.cell ∧
      rt1.cell ∈ rb.roots ∧
      w.cell ≠ rt1.cell ∧
      (∃ c : Cell, rw.cells[rt1.cell]? = some c ∧
        c.val = (⟨⟨0⟩, none⟩ : MutEntry).ix ∧ c.strong = 2) ∧
      (∃ c : Cell, rw.cells[w.cell]? = some c ∧
        c.val = (⟨⟨0⟩, none⟩ : MutEntry).ix ∧
        c.strong = 1 ∧ c.weakc = 1) ∧
      rw.data[(⟨⟨0⟩, none⟩ : MutEntry).ix.ix]? =
        some (Spot.Present
          { (⟨none, ⟨7, []⟩⟩ : Entry Nat) with rc := some w.cell })) :=
  ⟨rfl, by decide, rfl, c7_amended rfl (by decide) rfl⟩

/-- C9 witness: the live anchor cell 0 of `rEx` still reports its index
before collection; the anchor of the reclaimed object 2 reports `None` and
`EntryExpired` afterwards. -/
theorem c9_weak_expiry_witness :
    (rEx.cells[(⟨0⟩ : Weak).cell]? = some ⟨⟨0⟩, 1, 1⟩ ∧
      0 < (⟨⟨0⟩, 1, 1⟩ : Cell).strong ∧
      Weak.ixOpt ⟨0⟩ rEx = some (⟨⟨0⟩, 1, 1⟩ : Cell).val) ∧
    (wfB rEx = true ∧ rEx.gc = .ok (rExAfter, [30]) ∧ ¬Reaches rEx 2 ∧
      rEx.data[(2 : Nat)]? = some (Spot.Present ⟨some 2, ⟨30, []⟩⟩) ∧
      (⟨some 2, ⟨30, []⟩⟩ : Entry Nat).rc = some 2 ∧
      Weak.ixOpt ⟨2⟩ rExAfter = none ∧
      Weak.tryGet ⟨2⟩ rExAfter = .error .EntryExpired) :=
  ⟨⟨by decide, by decide,
    (c9_weak_expiry (A := Nat)).1 rEx ⟨0⟩ ⟨⟨0⟩, 1, 1⟩ (by decide)
      (by decide)⟩,
   by
    have h2 := (c9_weak_expiry (A := Nat)).2 rEx rExAfter [30] 2 2
      ⟨some 2, ⟨30, []⟩⟩ (by decide) (by decide) rEx_not_reaches_two
      (by decide) rfl
    exact ⟨by decide, by decide, rEx_not_reaches_two, by decide, rfl,
      h2.1, h2.2⟩⟩

end MovingGc
